import Mathlib

set_option maxHeartbeats 1000000
set_option maxRecDepth 10000

/-!
Shallow embedding of `src/dnf.c` (the DNF floating-point conversion core of
the CBOR repository) and proofs about it.

Conventions of the embedding:
* C `unsigned long long` (64-bit) values are `Nat`, with `% 2^64` applied
  exactly where C arithmetic can wrap (only the `frac *= 2` step of
  `dnfi_normalize`; every other operation in the source stays below `2^64`).
* C `int` is `Int`; the sentinel `INT_MAX` is the 32-bit value `2147483647`.
* The C code type-puns `float`/`double` arguments and results through unions
  (`float__u`, `double__u`) to their bit patterns; the embedding works
  directly on those bit patterns as `Nat`.
* The recomposers receive the prior contents of the output object (`ph`,
  `pf`, `pd`) and return `(status, contents after the call)`; the C functions
  write through the pointer only in the single final success statement, so on
  failure the returned contents equal the prior contents.
* `errno` constants use their POSIX/Linux values: `EDOM = 33`, `ERANGE = 34`.
-/

namespace DNF

/-- 32-bit `INT_MAX`, the sentinel exponent `dnf.c` uses for infinity/NaN. -/
def intMax : Int := 2147483647

/-- POSIX `errno` value signalled on precision loss. -/
def EDOM : Nat := 33

/-- POSIX `errno` value signalled on exponent out of range. -/
def ERANGE : Nat := 34

/-- The intermediate value of `dnf.h`: `bool sign; int exp; unsigned long long frac;`. -/
structure dnf__s where
  sign : Bool
  exp : Int
  frac : Nat
deriving Repr, DecidableEq

/-- Loop body of `dnfi_normalize` (dnf.c:61-74): the C `for` loop runs at most
64 iterations and stops as soon as bit 63 of `frac` is set; each step doubles
`frac` (64-bit wrap-around made explicit) and decrements `exp`.  The `Nat`
argument is the remaining iteration budget, 64 at the top call. -/
def dnfi_normalize_go : Nat → Nat → Int → Nat × Int
  | 0, frac, exp => (frac, exp)
  | fuel + 1, frac, exp =>
    if frac &&& 0x8000000000000000 = 0 then
      dnfi_normalize_go fuel (frac * 2 % 2 ^ 64) (exp - 1)
    else
      (frac, exp)

/-- `dnfi_normalize` (dnf.c:61-74). -/
def dnfi_normalize (v : dnf__s) : dnf__s :=
  let p := dnfi_normalize_go 64 v.frac v.exp
  { sign := v.sign, exp := p.2, frac := p.1 }

/-- Loop body of `dnfi_denormalize` (dnf.c:81-90): `while (exp < maxexp) { frac /= 2; exp++; }`.
The fuel passed by `dnfi_denormalize` is exactly the number of iterations the C
`while` loop performs, so the fuelled recursion is that loop. -/
def dnfi_denormalize_go : Nat → dnf__s → Int → dnf__s
  | 0, v, _ => v
  | fuel + 1, v, maxexp =>
    if v.exp < maxexp then
      dnfi_denormalize_go fuel { sign := v.sign, exp := v.exp + 1, frac := v.frac / 2 } maxexp
    else
      v

/-- `dnfi_denormalize` (dnf.c:81-90).  The C loop runs `(maxexp - exp)`
iterations when that is positive and none otherwise, which is `(maxexp - exp).toNat`.
The defensive `assert(pv->frac != 0)` at dnf.c:89 is the subject of claim C9
and is stated there as a property of the result. -/
def dnfi_denormalize (v : dnf__s) (maxexp : Int) : dnf__s :=
  dnfi_denormalize_go (maxexp - v.exp).toNat v maxexp

/-- `dnf_fromhalf` (dnf.c:96-143) on the 16-bit pattern `h`.
Returns `(status, *pv)`. -/
def dnf_fromhalf (h : Nat) : Nat × dnf__s :=
  let sign : Bool := (h >>> 15) != 0
  let exp : Int := ((h >>> 10) &&& 0x1F : Nat)
  let frac : Nat := (h &&& 0x3FF) <<< 53
  if exp = 0x1F then
    (0, { sign := sign, exp := intMax, frac := frac })
  else if exp = 0 then
    if frac ≠ 0 then
      (0, dnfi_normalize { sign := sign, exp := -14, frac := frac })
    else
      (0, { sign := sign, exp := exp, frac := frac })
  else
    (0, { sign := sign, exp := exp - 15, frac := frac ||| 0x8000000000000000 })

/-- `dnf_fromsingle` (dnf.c:147-174); the C function takes a `float` and reads
its bit pattern through the union `float__u`, so the argument here is that
32-bit pattern. -/
def dnf_fromsingle (xi : Nat) : Nat × dnf__s :=
  let sign : Bool := (xi >>> 31) != 0
  let exp : Int := ((xi >>> 23) &&& 0xFF : Nat)
  let frac : Nat := (xi &&& 0x007FFFFF) <<< 40
  if exp = 0xFF then
    (0, { sign := sign, exp := intMax, frac := frac })
  else if exp = 0 then
    if frac ≠ 0 then
      (0, dnfi_normalize { sign := sign, exp := -126, frac := frac })
    else
      (0, { sign := sign, exp := exp, frac := frac })
  else
    (0, { sign := sign, exp := exp - 127, frac := frac ||| 0x8000000000000000 })

/-- `dnf_fromdouble` (dnf.c:178-205); the argument is the 64-bit pattern of
the `double` (union `double__u`). -/
def dnf_fromdouble (xi : Nat) : Nat × dnf__s :=
  let sign : Bool := (xi >>> 63) != 0
  let exp : Int := ((xi >>> 52) &&& 0x7FF : Nat)
  let frac : Nat := (xi &&& 0x000FFFFFFFFFFFFF) <<< 11
  if exp = 0x7FF then
    (0, { sign := sign, exp := intMax, frac := frac })
  else if exp = 0 then
    if frac ≠ 0 then
      (0, dnfi_normalize { sign := sign, exp := -1022, frac := frac })
    else
      (0, { sign := sign, exp := exp, frac := frac })
  else
    (0, { sign := sign, exp := exp - 1023, frac := frac ||| 0x8000000000000000 })

/-- Final straight-line part of `dnf_tohalf` (dnf.c:264-270): precision check
on the (possibly denormalized) fraction, then OR the mantissa and sign into
the already-computed exponent field `h` and store through the pointer. -/
def dnf_tohalf_pack (ph h : Nat) (v : dnf__s) : Nat × Nat :=
  if v.frac &&& 0x001FFFFFFFFFFFFF ≠ 0 then
    (EDOM, ph)
  else
    (0, h ||| ((v.frac >>> 53) &&& 0x3FF) ||| (if v.sign then 0x8000 else 0))

/-- `dnf_tohalf` (dnf.c:211-271).  `ph` is the prior contents of the output
object; the result is `(status, contents after the call)`.  In the normal-
exponent branch, `(v.exp + 15) & 0x1F` on a two's-complement `int` is the
nonnegative residue `(v.exp + 15) % 32`. -/
def dnf_tohalf (ph : Nat) (v : dnf__s) : Nat × Nat :=
  if v.exp = intMax then
    dnf_tohalf_pack ph 0x7C00 v
  else if v.exp < -24 ∨ 15 < v.exp then
    (ERANGE, ph)
  else if v.exp = 0 ∧ v.frac = 0 then
    dnf_tohalf_pack ph 0 v
  else if v.exp < -14 then
    dnf_tohalf_pack ph 0 (dnfi_denormalize v (-14))
  else
    dnf_tohalf_pack ph (((v.exp + 15) % 32).toNat <<< 10) v

/-- Final part of `dnf_tosingle` (dnf.c:295-301). -/
def dnf_tosingle_pack (pf f : Nat) (v : dnf__s) : Nat × Nat :=
  if v.frac &&& 0x000000FFFFFFFFFF ≠ 0 then
    (EDOM, pf)
  else
    (0, f ||| ((v.frac >>> 40) &&& 0x007FFFFF) ||| (if v.sign then 0x80000000 else 0))

/-- `dnf_tosingle` (dnf.c:275-302), on bit patterns (union `float__u`). -/
def dnf_tosingle (pf : Nat) (v : dnf__s) : Nat × Nat :=
  if v.exp = intMax then
    dnf_tosingle_pack pf 0x7F800000 v
  else if v.exp < -149 ∨ 127 < v.exp then
    (ERANGE, pf)
  else if v.exp = 0 ∧ v.frac = 0 then
    dnf_tosingle_pack pf 0 v
  else if v.exp < -126 then
    dnf_tosingle_pack pf 0 (dnfi_denormalize v (-126))
  else
    dnf_tosingle_pack pf (((v.exp + 127) % 256).toNat <<< 23) v

/-- Final part of `dnf_todouble` (dnf.c:326-332).  Note the precision mask is
the source's literal `0x0000000000000FFF` (12 low bits) even though the double
mantissa is shifted left by only 11 bits; claim C1 is about this. -/
def dnf_todouble_pack (pd d : Nat) (v : dnf__s) : Nat × Nat :=
  if v.frac &&& 0x0000000000000FFF ≠ 0 then
    (EDOM, pd)
  else
    (0, d ||| ((v.frac >>> 11) &&& 0x000FFFFFFFFFFFFF) |||
      (if v.sign then 0x8000000000000000 else 0))

/-- `dnf_todouble` (dnf.c:306-333), on bit patterns (union `double__u`). -/
def dnf_todouble (pd : Nat) (v : dnf__s) : Nat × Nat :=
  if v.exp = intMax then
    dnf_todouble_pack pd 0x7FF0000000000000 v
  else if v.exp < -1074 ∨ 1023 < v.exp then
    (ERANGE, pd)
  else if v.exp = 0 ∧ v.frac = 0 then
    dnf_todouble_pack pd 0 v
  else if v.exp < -1022 then
    dnf_todouble_pack pd 0 (dnfi_denormalize v (-1022))
  else
    dnf_todouble_pack pd (((v.exp + 1023) % 2048).toNat <<< 52) v

/-- Modelled from the spec (section 6 bit-layout table): the real value, as a
rational, of a 16-bit half pattern whose exponent field is not all-ones.
Subnormal (`e = 0`): `m * 2^(-14-10)`; normal: `(2^10 + m) * 2^(e-15-10)`.
Both are written over the common denominator `2^24`. -/
def valHalf (x : Nat) : ℚ :=
  (if x / 2 ^ 15 % 2 = 1 then (-1 : ℚ) else 1) *
    (((if x / 2 ^ 10 % 2 ^ 5 = 0 then x % 2 ^ 10
       else (2 ^ 10 + x % 2 ^ 10) * 2 ^ (x / 2 ^ 10 % 2 ^ 5 - 1) : Nat) : ℚ) /
      ((2 ^ 24 : Nat) : ℚ))

/-- Modelled from the spec (section 6): real value of a finite 32-bit single
pattern, over the common denominator `2^149`. -/
def valSingle (x : Nat) : ℚ :=
  (if x / 2 ^ 31 % 2 = 1 then (-1 : ℚ) else 1) *
    (((if x / 2 ^ 23 % 2 ^ 8 = 0 then x % 2 ^ 23
       else (2 ^ 23 + x % 2 ^ 23) * 2 ^ (x / 2 ^ 23 % 2 ^ 8 - 1) : Nat) : ℚ) /
      ((2 ^ 149 : Nat) : ℚ))

/-- Modelled from the spec (section 6): real value of a finite 64-bit double
pattern, over the common denominator `2^1074`. -/
def valDouble (x : Nat) : ℚ :=
  (if x / 2 ^ 63 % 2 = 1 then (-1 : ℚ) else 1) *
    (((if x / 2 ^ 52 % 2 ^ 11 = 0 then x % 2 ^ 52
       else (2 ^ 52 + x % 2 ^ 52) * 2 ^ (x / 2 ^ 52 % 2 ^ 11 - 1) : Nat) : ℚ) /
      ((2 ^ 1074 : Nat) : ℚ))

/-! ### Arithmetic bridges for the bit operations -/

/-- ORing a value whose low `n` bits are clear with a value below `2^n` is
addition. -/
theorem lor_mul_two_pow_add (n a b : ℕ) (hb : b < 2 ^ n) :
    a * 2 ^ n ||| b = a * 2 ^ n + b := by
  apply Nat.eq_of_testBit_eq
  intro i
  rw [Nat.testBit_or]
  rcases lt_or_ge i n with hi | hi
  · have h1 : (a * 2 ^ n).testBit i = false := by
      rw [← Nat.shiftLeft_eq, Nat.testBit_shiftLeft]
      simp [Nat.not_le.mpr hi]
    have hmod : (a * 2 ^ n + b) % 2 ^ n = b := by
      rw [Nat.mul_comm, Nat.mul_add_mod]
      exact Nat.mod_eq_of_lt hb
    have h2 : (a * 2 ^ n + b).testBit i = b.testBit i := by
      have h := Nat.testBit_mod_two_pow (a * 2 ^ n + b) n i
      rw [hmod] at h
      rw [h]
      simp [hi]
    rw [h1, h2]
    simp
  · have h1 : b.testBit i = false :=
      Nat.testBit_lt_two_pow (lt_of_lt_of_le hb (Nat.pow_le_pow_right (by norm_num) hi))
    have h2 : (a * 2 ^ n).testBit i = a.testBit (i - n) := by
      rw [← Nat.shiftLeft_eq, Nat.testBit_shiftLeft]
      simp [hi]
    have hdiv : (a * 2 ^ n + b) / 2 ^ n = a := by
      rw [Nat.mul_comm, Nat.mul_add_div (by positivity)]
      simp [Nat.div_eq_of_lt hb]
    have h3 : (a * 2 ^ n + b).testBit i = a.testBit (i - n) := by
      have hsh := Nat.testBit_shiftRight (a * 2 ^ n + b) (i := n) (j := i - n)
      rw [Nat.shiftRight_eq_div_pow, hdiv, Nat.add_sub_cancel' hi] at hsh
      exact hsh.symm
    rw [h1, h2, h3]
    simp

/-- Special case of `lor_mul_two_pow_add` with a bare power of two. -/
theorem lor_two_pow_add (n b : ℕ) (hb : b < 2 ^ n) : 2 ^ n ||| b = 2 ^ n + b := by
  have h := lor_mul_two_pow_add n 1 b hb
  simpa using h

/-- ORing in a sign bit above every set bit of `X` is addition. -/
theorem or_sign_bit (X : ℕ) (sg : Bool) (n sb : ℕ) (hX : X < 2 ^ n) (hsb : sb = 2 ^ n) :
    X ||| (if sg then sb else 0) = (if sg then 2 ^ n else 0) + X := by
  cases sg
  · simp
  · subst hsb
    rw [Nat.or_comm]
    simpa using lor_two_pow_add n X hX

/-- Masking with `2^n - 1` is reduction mod `2^n`; stated so that the mask can
be given as a hexadecimal literal. -/
theorem and_mask (x n mask : ℕ) (hm : mask = 2 ^ n - 1) : x &&& mask = x % 2 ^ n := by
  subst hm
  exact Nat.and_pow_two_sub_one_eq_mod x n

/-- The `frac & 0x8000000000000000` test of `dnfi_normalize`: for a 64-bit
value it is exactly the comparison with `2^63`. -/
theorem and_msb_eq_zero_iff (x : ℕ) (hx : x < 2 ^ 64) :
    x &&& 0x8000000000000000 = 0 ↔ x < 2 ^ 63 := by
  have h : (0x8000000000000000 : ℕ) = 2 ^ 63 := by norm_num
  rw [h, Nat.and_two_pow, Nat.testBit_to_div_mod]
  simp only [Bool.toNat_eq_zero, decide_eq_false_iff_not, Nat.mul_eq_zero,
    pow_eq_zero_iff, OfNat.ofNat_ne_zero, or_false, false_and, or_self_right]
  omega

/-- Bit 63 of a 64-bit value in the top half is set. -/
theorem testBit63_of_bounds (x : ℕ) (h1 : 2 ^ 63 ≤ x) (h2 : x < 2 ^ 64) :
    x.testBit 63 = true := by
  rw [Nat.testBit_to_div_mod]
  simp only [decide_eq_true_eq]
  omega

/-! ### Characterization of the helper loops -/

/-- The normalize loop multiplies the fraction by the power of two that brings
bit 63 up, and decrements the exponent by the same count, provided the fuel is
large enough (`2^63 ≤ frac * 2^fuel`). -/
theorem dnfi_normalize_go_eq (fuel : ℕ) :
    ∀ frac exp, 0 < frac → frac < 2 ^ 64 → 2 ^ 63 ≤ frac * 2 ^ fuel →
      ∃ k, k ≤ fuel ∧ dnfi_normalize_go fuel frac exp = (frac * 2 ^ k, exp - k) ∧
        2 ^ 63 ≤ frac * 2 ^ k ∧ frac * 2 ^ k < 2 ^ 64 := by
  induction fuel with
  | zero =>
    intro frac exp h0 h64 hp
    refine ⟨0, le_refl 0, ?_, ?_, ?_⟩
    · simp [dnfi_normalize_go]
    · simpa using hp
    · simpa using h64
  | succ n ih =>
    intro frac exp h0 h64 hp
    by_cases hbit : frac &&& 0x8000000000000000 = 0
    · have hlt : frac < 2 ^ 63 := (and_msb_eq_zero_iff frac h64).mp hbit
      have h2 : frac * 2 % 2 ^ 64 = frac * 2 := Nat.mod_eq_of_lt (by omega)
      have hp2 : 2 ^ 63 ≤ frac * 2 * 2 ^ n := by
        have : frac * 2 * 2 ^ n = frac * 2 ^ (n + 1) := by ring
        omega
      obtain ⟨k, hk, heq, hge, hlt2⟩ := ih (frac * 2) (exp - 1) (by omega) (by omega) hp2
      refine ⟨k + 1, by omega, ?_, ?_, ?_⟩
      · have hstep : dnfi_normalize_go (n + 1) frac exp =
            dnfi_normalize_go n (frac * 2 % 2 ^ 64) (exp - 1) := by
          simp [dnfi_normalize_go, hbit]
        rw [hstep, h2, heq]
        have hfr : frac * 2 * 2 ^ k = frac * 2 ^ (k + 1) := by ring
        have hex : exp - 1 - (k : ℤ) = exp - ((k : ℕ) + 1 : ℕ) := by push_cast; ring
        rw [hfr, hex]
      · have : frac * 2 * 2 ^ k = frac * 2 ^ (k + 1) := by ring
        omega
      · have : frac * 2 * 2 ^ k = frac * 2 ^ (k + 1) := by ring
        omega
    · have hge : 2 ^ 63 ≤ frac := by
        by_contra hc
        exact hbit ((and_msb_eq_zero_iff frac h64).mpr (by omega))
      refine ⟨0, Nat.zero_le _, ?_, ?_, ?_⟩
      · simp [dnfi_normalize_go, hbit]
      · simpa using hge
      · simpa using h64

/-- The denormalize loop with fuel equal to the iteration count shifts the
fraction right by that count and raises the exponent by it. -/
theorem dnfi_denormalize_go_eq :
    ∀ (k : ℕ) (v : dnf__s) (m : Int), (m - v.exp).toNat = k →
      dnfi_denormalize_go k v m =
        { sign := v.sign, exp := v.exp + (k : ℤ), frac := v.frac / 2 ^ k } := by
  intro k
  induction k with
  | zero =>
    intro v m _
    simp [dnfi_denormalize_go]
  | succ n ih =>
    intro v m hk
    have hlt : v.exp < m := by omega
    have hstep : dnfi_denormalize_go (n + 1) v m =
        dnfi_denormalize_go n { sign := v.sign, exp := v.exp + 1, frac := v.frac / 2 } m := by
      simp [dnfi_denormalize_go, hlt]
    rw [hstep, ih _ m (by simp; omega)]
    have hfr : v.frac / 2 / 2 ^ n = v.frac / 2 ^ (n + 1) := by
      rw [Nat.div_div_eq_div_mul]
      congr 1
      ring
    have hex : v.exp + 1 + (n : ℤ) = v.exp + ((n : ℕ) + 1 : ℕ) := by push_cast; ring
    simp only [hfr]
    rw [hex]

/-- Closed form of `dnfi_denormalize`. -/
theorem dnfi_denormalize_eq (v : dnf__s) (m : Int) :
    dnfi_denormalize v m =
      { sign := v.sign, exp := v.exp + ((m - v.exp).toNat : ℤ),
        frac := v.frac / 2 ^ (m - v.exp).toNat } :=
  dnfi_denormalize_go_eq _ v m rfl

/-! ### Case analysis of `dnf_fromhalf` on the three bit fields -/

/-- All-ones exponent field (infinity / NaN). -/
theorem fromhalf_inf (s m : ℕ) (hs : s < 2) (hm : m < 2 ^ 10) :
    dnf_fromhalf (s * 2 ^ 15 + 31 * 2 ^ 10 + m) =
      (0, { sign := decide (s = 1), exp := intMax, frac := m * 2 ^ 53 }) := by
  have he : (s * 2 ^ 15 + 31 * 2 ^ 10 + m) >>> 10 &&& 0x1F = 31 := by
    rw [Nat.shiftRight_eq_div_pow, and_mask _ 5 _ (by norm_num)]
    omega
  have hm2 : (s * 2 ^ 15 + 31 * 2 ^ 10 + m) &&& 0x3FF = m := by
    rw [and_mask _ 10 _ (by norm_num)]
    omega
  have hsgn : ((s * 2 ^ 15 + 31 * 2 ^ 10 + m) >>> 15 != 0) = decide (s = 1) := by
    rw [Nat.shiftRight_eq_div_pow]
    have hdiv : (s * 2 ^ 15 + 31 * 2 ^ 10 + m) / 2 ^ 15 = s := by omega
    rw [hdiv]
    interval_cases s <;> rfl
  simp only [dnf_fromhalf, he, hm2, hsgn, Nat.shiftLeft_eq]
  norm_num

/-- Zero exponent field and zero mantissa field (signed zero). -/
theorem fromhalf_zero (s : ℕ) (hs : s < 2) :
    dnf_fromhalf (s * 2 ^ 15) = (0, { sign := decide (s = 1), exp := 0, frac := 0 }) := by
  have he : (s * 2 ^ 15) >>> 10 &&& 0x1F = 0 := by
    rw [Nat.shiftRight_eq_div_pow, and_mask _ 5 _ (by norm_num)]
    omega
  have hm2 : s * 2 ^ 15 &&& 0x3FF = 0 := by
    rw [and_mask _ 10 _ (by norm_num)]
    omega
  have hsgn : ((s * 2 ^ 15) >>> 15 != 0) = decide (s = 1) := by
    rw [Nat.shiftRight_eq_div_pow]
    have hdiv : s * 2 ^ 15 / 2 ^ 15 = s := by omega
    rw [hdiv]
    interval_cases s <;> rfl
  simp only [dnf_fromhalf, he, hm2, hsgn, Nat.shiftLeft_eq]
  norm_num

/-- Zero exponent field, non-zero mantissa field (subnormal): the normalize
loop brings bit 63 up after `k` doublings, `1 ≤ k ≤ 10`. -/
theorem fromhalf_sub (s m : ℕ) (hs : s < 2) (hm : m < 2 ^ 10) (hm0 : m ≠ 0) :
    ∃ k : ℕ, 1 ≤ k ∧ k ≤ 10 ∧
      dnf_fromhalf (s * 2 ^ 15 + m) =
        (0, { sign := decide (s = 1), exp := -14 - (k : ℤ), frac := m * 2 ^ (53 + k) }) ∧
      2 ^ 63 ≤ m * 2 ^ (53 + k) ∧ m * 2 ^ (53 + k) < 2 ^ 64 := by
  have he : (s * 2 ^ 15 + m) >>> 10 &&& 0x1F = 0 := by
    rw [Nat.shiftRight_eq_div_pow, and_mask _ 5 _ (by norm_num)]
    omega
  have hm2 : (s * 2 ^ 15 + m) &&& 0x3FF = m := by
    rw [and_mask _ 10 _ (by norm_num)]
    omega
  have hsgn : ((s * 2 ^ 15 + m) >>> 15 != 0) = decide (s = 1) := by
    rw [Nat.shiftRight_eq_div_pow]
    have hdiv : (s * 2 ^ 15 + m) / 2 ^ 15 = s := by omega
    rw [hdiv]
    interval_cases s <;> rfl
  have hb1 : m * 2 ^ 53 < 2 ^ 63 := by
    calc m * 2 ^ 53 < 2 ^ 10 * 2 ^ 53 := by
          exact mul_lt_mul_of_pos_right hm (by positivity)
    _ = 2 ^ 63 := by norm_num
  have hbig : 2 ^ 63 ≤ m * 2 ^ 53 * 2 ^ 64 := by
    calc (2 : ℕ) ^ 63 ≤ 1 * (2 ^ 53 * 2 ^ 64) := by norm_num
    _ ≤ m * (2 ^ 53 * 2 ^ 64) := Nat.mul_le_mul_right _ (by omega)
    _ = m * 2 ^ 53 * 2 ^ 64 := by ring
  obtain ⟨k, hk64, heq, hge, hlt⟩ :=
    dnfi_normalize_go_eq 64 (m * 2 ^ 53) (-14)
      (Nat.mul_pos (Nat.pos_of_ne_zero hm0) (by positivity)) (by omega) hbig
  have hconv : m * 2 ^ 53 * 2 ^ k = m * 2 ^ (53 + k) := by
    rw [mul_assoc, ← pow_add]
  rw [hconv] at hge hlt
  have hk1 : 1 ≤ k := by
    rcases Nat.eq_zero_or_pos k with rfl | h
    · rw [Nat.add_zero] at hge
      omega
    · exact h
  have hk10 : k ≤ 10 := by
    by_contra hc
    have h11 : 64 ≤ 53 + k := by omega
    have hp : (2 : ℕ) ^ 64 ≤ 2 ^ (53 + k) := Nat.pow_le_pow_right (by norm_num) h11
    have hp2 : 2 ^ (53 + k) ≤ m * 2 ^ (53 + k) := Nat.le_mul_of_pos_left _ (by omega)
    have := lt_of_le_of_lt (le_trans hp hp2) hlt
    exact lt_irrefl _ this
  refine ⟨k, hk1, hk10, ?_, hge, hlt⟩
  have hnz : m * 2 ^ 53 ≠ 0 := Nat.mul_ne_zero hm0 (by positivity)
  simp only [dnf_fromhalf, he, hm2, hsgn, Nat.shiftLeft_eq, Nat.cast_zero]
  rw [if_pos trivial, if_pos hnz]
  simp only [dnfi_normalize, heq, hconv]
  norm_num

/-- Ordinary exponent field (normal value): subtract the bias, OR in the
hidden bit. -/
theorem fromhalf_norm (s e m : ℕ) (hs : s < 2) (he1 : 1 ≤ e) (he2 : e ≤ 30) (hm : m < 2 ^ 10) :
    dnf_fromhalf (s * 2 ^ 15 + e * 2 ^ 10 + m) =
      (0, { sign := decide (s = 1), exp := (e : ℤ) - 15, frac := 2 ^ 63 + m * 2 ^ 53 }) := by
  have he : (s * 2 ^ 15 + e * 2 ^ 10 + m) >>> 10 &&& 0x1F = e := by
    rw [Nat.shiftRight_eq_div_pow, and_mask _ 5 _ (by norm_num)]
    omega
  have hm2 : (s * 2 ^ 15 + e * 2 ^ 10 + m) &&& 0x3FF = m := by
    rw [and_mask _ 10 _ (by norm_num)]
    omega
  have hsgn : ((s * 2 ^ 15 + e * 2 ^ 10 + m) >>> 15 != 0) = decide (s = 1) := by
    rw [Nat.shiftRight_eq_div_pow]
    have hdiv : (s * 2 ^ 15 + e * 2 ^ 10 + m) / 2 ^ 15 = s := by omega
    rw [hdiv]
    interval_cases s <;> rfl
  have hb1 : m * 2 ^ 53 < 2 ^ 63 := by
    calc m * 2 ^ 53 < 2 ^ 10 * 2 ^ 53 := by
          exact mul_lt_mul_of_pos_right hm (by positivity)
    _ = 2 ^ 63 := by norm_num
  have hlor : m * 2 ^ 53 ||| 0x8000000000000000 = 2 ^ 63 + m * 2 ^ 53 := by
    have h9 : (0x8000000000000000 : ℕ) = 2 ^ 63 := by norm_num
    rw [h9, Nat.or_comm, lor_two_pow_add 63 _ hb1]
  have hc1 : ¬((e : ℤ) = 0x1F) := by omega
  have hc2 : ¬((e : ℤ) = 0) := by omega
  simp only [dnf_fromhalf, he, hm2, hsgn, Nat.shiftLeft_eq, hlor]
  rw [if_neg hc1, if_neg hc2]

/-! ### Decomposer outputs representing finite non-zero values have bit 63 set -/

/-- `dnf_fromhalf`: unless the output is the infinity/NaN sentinel or the
zero representation, its fraction lies in `[2^63, 2^64)`. -/
theorem fromhalf_frac_msb (x : ℕ) :
    (dnf_fromhalf x).2.exp ≠ intMax →
    ((dnf_fromhalf x).2.exp ≠ 0 ∨ (dnf_fromhalf x).2.frac ≠ 0) →
    2 ^ 63 ≤ (dnf_fromhalf x).2.frac ∧ (dnf_fromhalf x).2.frac < 2 ^ 64 := by
  have hb : (x &&& 0x3FF) <<< 53 < 2 ^ 63 := by
    rw [and_mask _ 10 _ (by norm_num), Nat.shiftLeft_eq]
    calc x % 2 ^ 10 * 2 ^ 53 < 2 ^ 10 * 2 ^ 53 :=
          mul_lt_mul_of_pos_right (Nat.mod_lt x (by norm_num)) (by positivity)
    _ = 2 ^ 63 := by norm_num
  simp only [dnf_fromhalf]
  split_ifs with h1 h2 h3
  · intro hinf _
    exfalso
    exact hinf rfl
  · intro _ _
    obtain ⟨k, hk, heq, hge, hlt⟩ :=
      dnfi_normalize_go_eq 64 ((x &&& 0x3FF) <<< 53) (-14) (Nat.pos_of_ne_zero h3)
        (by omega)
        (by
          calc (2 : ℕ) ^ 63 ≤ 1 * 2 ^ 64 := by norm_num
          _ ≤ (x &&& 0x3FF) <<< 53 * 2 ^ 64 :=
              Nat.mul_le_mul_right _ (Nat.pos_of_ne_zero h3))
    simp only [dnfi_normalize, heq]
    exact ⟨hge, hlt⟩
  · intro _ hnz
    exfalso
    rcases hnz with ha | hb2
    · exact ha h2
    · exact hb2 (not_not.mp h3)
  · intro _ _
    have h9 : (0x8000000000000000 : ℕ) = 2 ^ 63 := by norm_num
    simp only [h9, Nat.or_comm, lor_two_pow_add 63 _ hb]
    constructor
    · simp
    · omega

/-- `dnf_fromsingle`: same property. -/
theorem fromsingle_frac_msb (x : ℕ) :
    (dnf_fromsingle x).2.exp ≠ intMax →
    ((dnf_fromsingle x).2.exp ≠ 0 ∨ (dnf_fromsingle x).2.frac ≠ 0) →
    2 ^ 63 ≤ (dnf_fromsingle x).2.frac ∧ (dnf_fromsingle x).2.frac < 2 ^ 64 := by
  have hb : (x &&& 0x007FFFFF) <<< 40 < 2 ^ 63 := by
    rw [and_mask _ 23 _ (by norm_num), Nat.shiftLeft_eq]
    calc x % 2 ^ 23 * 2 ^ 40 < 2 ^ 23 * 2 ^ 40 :=
          mul_lt_mul_of_pos_right (Nat.mod_lt x (by norm_num)) (by positivity)
    _ = 2 ^ 63 := by norm_num
  simp only [dnf_fromsingle]
  split_ifs with h1 h2 h3
  · intro hinf _
    exfalso
    exact hinf rfl
  · intro _ _
    obtain ⟨k, hk, heq, hge, hlt⟩ :=
      dnfi_normalize_go_eq 64 ((x &&& 0x007FFFFF) <<< 40) (-126) (Nat.pos_of_ne_zero h3)
        (by omega)
        (by
          calc (2 : ℕ) ^ 63 ≤ 1 * 2 ^ 64 := by norm_num
          _ ≤ (x &&& 0x007FFFFF) <<< 40 * 2 ^ 64 :=
              Nat.mul_le_mul_right _ (Nat.pos_of_ne_zero h3))
    simp only [dnfi_normalize, heq]
    exact ⟨hge, hlt⟩
  · intro _ hnz
    exfalso
    rcases hnz with ha | hb2
    · exact ha h2
    · exact hb2 (not_not.mp h3)
  · intro _ _
    have h9 : (0x8000000000000000 : ℕ) = 2 ^ 63 := by norm_num
    simp only [h9, Nat.or_comm, lor_two_pow_add 63 _ hb]
    constructor
    · simp
    · omega

/-- `dnf_fromdouble`: same property. -/
theorem fromdouble_frac_msb (x : ℕ) :
    (dnf_fromdouble x).2.exp ≠ intMax →
    ((dnf_fromdouble x).2.exp ≠ 0 ∨ (dnf_fromdouble x).2.frac ≠ 0) →
    2 ^ 63 ≤ (dnf_fromdouble x).2.frac ∧ (dnf_fromdouble x).2.frac < 2 ^ 64 := by
  have hb : (x &&& 0x000FFFFFFFFFFFFF) <<< 11 < 2 ^ 63 := by
    rw [and_mask _ 52 _ (by norm_num), Nat.shiftLeft_eq]
    calc x % 2 ^ 52 * 2 ^ 11 < 2 ^ 52 * 2 ^ 11 :=
          mul_lt_mul_of_pos_right (Nat.mod_lt x (by norm_num)) (by positivity)
    _ = 2 ^ 63 := by norm_num
  simp only [dnf_fromdouble]
  split_ifs with h1 h2 h3
  · intro hinf _
    exfalso
    exact hinf rfl
  · intro _ _
    obtain ⟨k, hk, heq, hge, hlt⟩ :=
      dnfi_normalize_go_eq 64 ((x &&& 0x000FFFFFFFFFFFFF) <<< 11) (-1022)
        (Nat.pos_of_ne_zero h3) (by omega)
        (by
          calc (2 : ℕ) ^ 63 ≤ 1 * 2 ^ 64 := by norm_num
          _ ≤ (x &&& 0x000FFFFFFFFFFFFF) <<< 11 * 2 ^ 64 :=
              Nat.mul_le_mul_right _ (Nat.pos_of_ne_zero h3))
    simp only [dnfi_normalize, heq]
    exact ⟨hge, hlt⟩
  · intro _ hnz
    exfalso
    rcases hnz with ha | hb2
    · exact ha h2
    · exact hb2 (not_not.mp h3)
  · intro _ _
    have h9 : (0x8000000000000000 : ℕ) = 2 ^ 63 := by norm_num
    simp only [h9, Nat.or_comm, lor_two_pow_add 63 _ hb]
    constructor
    · simp
    · omega

/-! ### Evaluating `dnf_tohalf` on the shapes `dnf_fromhalf` produces -/

/-- `dnf_tohalf` on the infinity/NaN sentinel shape. -/
theorem tohalf_on_inf (p m : ℕ) (sg : Bool) (hm : m < 2 ^ 10) :
    dnf_tohalf p { sign := sg, exp := intMax, frac := m * 2 ^ 53 } =
      (0, (if sg then 2 ^ 15 else 0) + 31 * 2 ^ 10 + m) := by
  have hmask : m * 2 ^ 53 &&& 0x001FFFFFFFFFFFFF = 0 := by
    rw [and_mask _ 53 _ (by norm_num)]
    omega
  have hmant : (m * 2 ^ 53) >>> 53 &&& 0x3FF = m := by
    rw [Nat.shiftRight_eq_div_pow, and_mask _ 10 _ (by norm_num)]
    omega
  simp only [dnf_tohalf, dnf_tohalf_pack, hmask, hmant]
  norm_num
  have h1 : (0x7C00 : ℕ) ||| m = 31 * 2 ^ 10 + m := by
    have h2 : (0x7C00 : ℕ) = 31 * 2 ^ 10 := by norm_num
    rw [h2, lor_mul_two_pow_add 10 31 m hm]
  rw [h1, or_sign_bit _ sg 15 _ (by omega) (by norm_num)]
  cases sg <;> simp <;> omega

/-- `dnf_tohalf` on the signed-zero shape. -/
theorem tohalf_on_zero (p : ℕ) (sg : Bool) :
    dnf_tohalf p { sign := sg, exp := 0, frac := 0 } = (0, if sg then 2 ^ 15 else 0) := by
  simp only [dnf_tohalf, dnf_tohalf_pack, intMax]
  norm_num

/-- `dnf_tohalf` on the normalized-subnormal shape: the denormalize loop
undoes exactly the `k` doublings of the normalize loop. -/
theorem tohalf_on_sub (p m k : ℕ) (sg : Bool) (hm : m < 2 ^ 10) (hm0 : m ≠ 0)
    (hk1 : 1 ≤ k) (hk10 : k ≤ 10) :
    dnf_tohalf p { sign := sg, exp := -14 - (k : ℤ), frac := m * 2 ^ (53 + k) } =
      (0, (if sg then 2 ^ 15 else 0) + m) := by
  have hc1 : ¬(-14 - (k : ℤ) = intMax) := by
    simp only [intMax]
    omega
  have hc2 : ¬(-14 - (k : ℤ) < -24 ∨ 15 < -14 - (k : ℤ)) := by omega
  have hc3 : ¬(-14 - (k : ℤ) = 0 ∧ m * 2 ^ (53 + k) = 0) := by
    rintro ⟨hz, -⟩
    omega
  have hc4 : -14 - (k : ℤ) < -14 := by omega
  have htk : ((-14 : ℤ) - (-14 - (k : ℤ))).toNat = k := by omega
  have hfr : m * 2 ^ (53 + k) / 2 ^ k = m * 2 ^ 53 := by
    have h1 : m * 2 ^ (53 + k) = m * 2 ^ 53 * 2 ^ k := by
      rw [mul_assoc, ← pow_add]
    rw [h1, Nat.mul_div_cancel _ (by positivity)]
  have hmask : m * 2 ^ 53 &&& 0x001FFFFFFFFFFFFF = 0 := by
    rw [and_mask _ 53 _ (by norm_num)]
    omega
  have hmant : (m * 2 ^ 53) >>> 53 &&& 0x3FF = m := by
    rw [Nat.shiftRight_eq_div_pow, and_mask _ 10 _ (by norm_num)]
    omega
  simp only [dnf_tohalf]
  rw [if_neg hc1, if_neg hc2, if_neg hc3, if_pos hc4, dnfi_denormalize_eq]
  simp only [htk, hfr, dnf_tohalf_pack]
  rw [if_neg (show ¬(m * 2 ^ 53 &&& 0x001FFFFFFFFFFFFF ≠ 0) by
      simp only [ne_eq, not_not]
      rw [and_mask _ 53 _ (by norm_num)]
      omega), hmant,
    Nat.zero_or, or_sign_bit m sg 15 _ (by omega) (by norm_num)]

/-- `dnf_tohalf` on the normal shape. -/
theorem tohalf_on_norm (p e m : ℕ) (sg : Bool) (he1 : 1 ≤ e) (he2 : e ≤ 30) (hm : m < 2 ^ 10) :
    dnf_tohalf p { sign := sg, exp := (e : ℤ) - 15, frac := 2 ^ 63 + m * 2 ^ 53 } =
      (0, (if sg then 2 ^ 15 else 0) + e * 2 ^ 10 + m) := by
  have hc1 : ¬((e : ℤ) - 15 = intMax) := by
    simp only [intMax]
    omega
  have hc2 : ¬((e : ℤ) - 15 < -24 ∨ 15 < (e : ℤ) - 15) := by omega
  have hc3 : ¬((e : ℤ) - 15 = 0 ∧ 2 ^ 63 + m * 2 ^ 53 = 0) := by
    rintro ⟨-, hz⟩
    omega
  have hc4 : ¬((e : ℤ) - 15 < -14) := by omega
  have hbase : (((e : ℤ) - 15 + 15) % 32).toNat = e := by omega
  have hmask : (2 ^ 63 + m * 2 ^ 53) &&& 0x001FFFFFFFFFFFFF = 0 := by
    rw [and_mask _ 53 _ (by norm_num)]
    omega
  have hmant : (2 ^ 63 + m * 2 ^ 53) >>> 53 &&& 0x3FF = m := by
    rw [Nat.shiftRight_eq_div_pow, and_mask _ 10 _ (by norm_num)]
    omega
  simp only [dnf_tohalf]
  rw [if_neg hc1, if_neg hc2, if_neg hc3, if_neg hc4]
  simp only [hbase, Nat.shiftLeft_eq, dnf_tohalf_pack]
  rw [if_neg (show ¬((2 ^ 63 + m * 2 ^ 53) &&& 0x001FFFFFFFFFFFFF ≠ 0) by
      simp only [ne_eq, not_not]
      rw [and_mask _ 53 _ (by norm_num)]
      omega),
    hmant, lor_mul_two_pow_add 10 e m hm,
    or_sign_bit _ sg 15 _ (by omega) (by norm_num), ← Nat.add_assoc]

/-- C3: for all 65536 half bit patterns, decomposing with `dnf_fromhalf` and
recomposing with `dnf_tohalf` succeeds and returns the input pattern exactly,
whatever the prior contents `p` of the output object. -/
theorem c3_half_roundtrip (h : ℕ) (hh : h < 2 ^ 16) (p : ℕ) :
    dnf_tohalf p (dnf_fromhalf h).2 = (0, h) := by
  obtain ⟨s, e, m, hs, he, hm, rfl⟩ :
      ∃ s e m : ℕ, s < 2 ∧ e < 32 ∧ m < 2 ^ 10 ∧ h = s * 2 ^ 15 + e * 2 ^ 10 + m :=
    ⟨h / 2 ^ 15, h / 2 ^ 10 % 32, h % 2 ^ 10, by omega, by omega, by omega, by omega⟩
  by_cases he31 : e = 31
  · subst he31
    rw [fromhalf_inf s m hs hm]
    dsimp only
    rw [tohalf_on_inf p m _ hm]
    interval_cases s <;> simp
  · by_cases he0 : e = 0
    · subst he0
      by_cases hm0 : m = 0
      · subst hm0
        have hsimp : s * 2 ^ 15 + 0 * 2 ^ 10 + 0 = s * 2 ^ 15 := by ring
        rw [hsimp, fromhalf_zero s hs]
        dsimp only
        rw [tohalf_on_zero p _]
        interval_cases s <;> simp
      · have hsimp : s * 2 ^ 15 + 0 * 2 ^ 10 + m = s * 2 ^ 15 + m := by ring
        rw [hsimp]
        obtain ⟨k, hk1, hk10, heq, hge, hlt⟩ := fromhalf_sub s m hs hm hm0
        rw [heq]
        dsimp only
        rw [tohalf_on_sub p m k _ hm hm0 hk1 hk10]
        interval_cases s <;> simp
    · have he1 : 1 ≤ e := by omega
      have he2 : e ≤ 30 := by omega
      rw [fromhalf_norm s e m hs he1 he2 hm]
      dsimp only
      rw [tohalf_on_norm p e m _ he1 he2 hm]
      interval_cases s <;> simp

/-! ### Evaluating `dnf_tosingle` / `dnf_todouble` on the shapes `dnf_fromhalf` produces -/

/-- `dnf_tosingle` on the infinity/NaN sentinel shape of a half. -/
theorem tosingle_on_inf (pf m : ℕ) (sg : Bool) (hm : m < 2 ^ 10) :
    dnf_tosingle pf { sign := sg, exp := intMax, frac := m * 2 ^ 53 } =
      (0, (if sg then 2 ^ 31 else 0) + 255 * 2 ^ 23 + m * 2 ^ 13) := by
  have hmask : m * 2 ^ 53 &&& 0x000000FFFFFFFFFF = 0 := by
    rw [and_mask _ 40 _ (by norm_num)]
    omega
  have hmant : (m * 2 ^ 53) >>> 40 &&& 0x007FFFFF = m * 2 ^ 13 := by
    rw [Nat.shiftRight_eq_div_pow, and_mask _ 23 _ (by norm_num)]
    omega
  simp only [dnf_tosingle, dnf_tosingle_pack]
  rw [if_pos trivial, if_neg (show ¬(m * 2 ^ 53 &&& 0x000000FFFFFFFFFF ≠ 0) by
      simp only [ne_eq, not_not]
      exact hmask), hmant]
  have h1 : (0x7F800000 : ℕ) ||| m * 2 ^ 13 = 255 * 2 ^ 23 + m * 2 ^ 13 := by
    have h2 : (0x7F800000 : ℕ) = 255 * 2 ^ 23 := by norm_num
    rw [h2, lor_mul_two_pow_add 23 255 _ (by omega)]
  rw [h1, or_sign_bit _ sg 31 _ (by omega) (by norm_num), ← Nat.add_assoc]

/-- `dnf_tosingle` on the signed-zero shape. -/
theorem tosingle_on_zero (pf : ℕ) (sg : Bool) :
    dnf_tosingle pf { sign := sg, exp := 0, frac := 0 } = (0, if sg then 2 ^ 31 else 0) := by
  simp only [dnf_tosingle, dnf_tosingle_pack, intMax]
  norm_num

/-- `dnf_tosingle` on the normalized-subnormal shape of a half: the exponent
`-14 - k` is within single-precision normal range, so the value is packed as a
normal single. -/
theorem tosingle_on_sub (pf m k : ℕ) (sg : Bool) (hm : m < 2 ^ 10)
    (hk1 : 1 ≤ k) (hk10 : k ≤ 10)
    (hge : 2 ^ 63 ≤ m * 2 ^ (53 + k)) (hlt : m * 2 ^ (53 + k) < 2 ^ 64) :
    dnf_tosingle pf { sign := sg, exp := -14 - (k : ℤ), frac := m * 2 ^ (53 + k) } =
      (0, (if sg then 2 ^ 31 else 0) + (113 - k) * 2 ^ 23 + (m * 2 ^ (13 + k) - 2 ^ 23)) := by
  have hsplit : m * 2 ^ (53 + k) = m * 2 ^ (13 + k) * 2 ^ 40 := by
    calc m * 2 ^ (53 + k) = m * 2 ^ (13 + k + 40) := by
          rw [show 13 + k + 40 = 53 + k from by omega]
    _ = m * (2 ^ (13 + k) * 2 ^ 40) := by rw [pow_add]
    _ = m * 2 ^ (13 + k) * 2 ^ 40 := by rw [mul_assoc]
  have hX1 : 2 ^ 23 ≤ m * 2 ^ (13 + k) := by
    have h1 : 2 ^ 23 * 2 ^ 40 ≤ m * 2 ^ (13 + k) * 2 ^ 40 := by
      rw [← hsplit]
      calc (2 : ℕ) ^ 23 * 2 ^ 40 = 2 ^ 63 := by norm_num
      _ ≤ m * 2 ^ (53 + k) := hge
    exact Nat.le_of_mul_le_mul_right h1 (by positivity)
  have hX2 : m * 2 ^ (13 + k) < 2 ^ 24 := by
    have h1 : m * 2 ^ (13 + k) * 2 ^ 40 < 2 ^ 24 * 2 ^ 40 := by
      rw [← hsplit]
      calc m * 2 ^ (53 + k) < 2 ^ 64 := hlt
      _ = 2 ^ 24 * 2 ^ 40 := by norm_num
    exact lt_of_mul_lt_mul_right h1 (Nat.zero_le _)
  have hc1 : ¬(-14 - (k : ℤ) = intMax) := by
    simp only [intMax]
    omega
  have hc2 : ¬(-14 - (k : ℤ) < -149 ∨ 127 < -14 - (k : ℤ)) := by omega
  have hc3 : ¬(-14 - (k : ℤ) = 0 ∧ m * 2 ^ (53 + k) = 0) := by
    rintro ⟨hz, -⟩
    omega
  have hc4 : ¬(-14 - (k : ℤ) < -126) := by omega
  have hbase : ((-14 - (k : ℤ) + 127) % 256).toNat = 113 - k := by omega
  have hmask : m * 2 ^ (53 + k) &&& 0x000000FFFFFFFFFF = 0 := by
    rw [and_mask _ 40 _ (by norm_num), hsplit, Nat.mul_mod_left]
  have hdiv : m * 2 ^ (53 + k) / 2 ^ 40 = m * 2 ^ (13 + k) := by
    rw [hsplit, Nat.mul_div_cancel _ (by positivity)]
  have hmant : (m * 2 ^ (53 + k)) >>> 40 &&& 0x007FFFFF = m * 2 ^ (13 + k) - 2 ^ 23 := by
    rw [Nat.shiftRight_eq_div_pow, hdiv, and_mask _ 23 _ (by norm_num)]
    omega
  simp only [dnf_tosingle]
  rw [if_neg hc1, if_neg hc2, if_neg hc3, if_neg hc4]
  simp only [hbase, Nat.shiftLeft_eq, dnf_tosingle_pack]
  rw [if_neg (show ¬(m * 2 ^ (53 + k) &&& 0x000000FFFFFFFFFF ≠ 0) by
      simp only [ne_eq, not_not]
      exact hmask), hmant,
    lor_mul_two_pow_add 23 (113 - k) _ (by omega),
    or_sign_bit _ sg 31 _ (by omega) (by norm_num), ← Nat.add_assoc]

/-- `dnf_tosingle` on the normal shape of a half. -/
theorem tosingle_on_norm (pf e m : ℕ) (sg : Bool) (he1 : 1 ≤ e) (he2 : e ≤ 30)
    (hm : m < 2 ^ 10) :
    dnf_tosingle pf { sign := sg, exp := (e : ℤ) - 15, frac := 2 ^ 63 + m * 2 ^ 53 } =
      (0, (if sg then 2 ^ 31 else 0) + (e + 112) * 2 ^ 23 + m * 2 ^ 13) := by
  have hc1 : ¬((e : ℤ) - 15 = intMax) := by
    simp only [intMax]
    omega
  have hc2 : ¬((e : ℤ) - 15 < -149 ∨ 127 < (e : ℤ) - 15) := by omega
  have hc3 : ¬((e : ℤ) - 15 = 0 ∧ 2 ^ 63 + m * 2 ^ 53 = 0) := by
    rintro ⟨-, hz⟩
    omega
  have hc4 : ¬((e : ℤ) - 15 < -126) := by omega
  have hbase : (((e : ℤ) - 15 + 127) % 256).toNat = e + 112 := by omega
  have hmant : (2 ^ 63 + m * 2 ^ 53) >>> 40 &&& 0x007FFFFF = m * 2 ^ 13 := by
    rw [Nat.shiftRight_eq_div_pow, and_mask _ 23 _ (by norm_num)]
    omega
  simp only [dnf_tosingle]
  rw [if_neg hc1, if_neg hc2, if_neg hc3, if_neg hc4]
  simp only [hbase, Nat.shiftLeft_eq, dnf_tosingle_pack]
  rw [if_neg (show ¬((2 ^ 63 + m * 2 ^ 53) &&& 0x000000FFFFFFFFFF ≠ 0) by
      simp only [ne_eq, not_not]
      rw [and_mask _ 40 _ (by norm_num)]
      omega),
    hmant, lor_mul_two_pow_add 23 (e + 112) _ (by omega),
    or_sign_bit _ sg 31 _ (by omega) (by norm_num), ← Nat.add_assoc]

/-- `dnf_todouble` on the infinity/NaN sentinel shape of a half. -/
theorem todouble_on_inf (pd m : ℕ) (sg : Bool) (hm : m < 2 ^ 10) :
    dnf_todouble pd { sign := sg, exp := intMax, frac := m * 2 ^ 53 } =
      (0, (if sg then 2 ^ 63 else 0) + 2047 * 2 ^ 52 + m * 2 ^ 42) := by
  have hmant : (m * 2 ^ 53) >>> 11 &&& 0x000FFFFFFFFFFFFF = m * 2 ^ 42 := by
    rw [Nat.shiftRight_eq_div_pow, and_mask _ 52 _ (by norm_num)]
    omega
  simp only [dnf_todouble, dnf_todouble_pack]
  rw [if_pos trivial, if_neg (show ¬(m * 2 ^ 53 &&& 0x0000000000000FFF ≠ 0) by
      simp only [ne_eq, not_not]
      rw [and_mask _ 12 _ (by norm_num)]
      omega), hmant]
  have h1 : (0x7FF0000000000000 : ℕ) ||| m * 2 ^ 42 = 2047 * 2 ^ 52 + m * 2 ^ 42 := by
    have h2 : (0x7FF0000000000000 : ℕ) = 2047 * 2 ^ 52 := by norm_num
    rw [h2, lor_mul_two_pow_add 52 2047 _ (by omega)]
  rw [h1, or_sign_bit _ sg 63 _ (by omega) (by norm_num), ← Nat.add_assoc]

/-- `dnf_todouble` on the signed-zero shape. -/
theorem todouble_on_zero (pd : ℕ) (sg : Bool) :
    dnf_todouble pd { sign := sg, exp := 0, frac := 0 } = (0, if sg then 2 ^ 63 else 0) := by
  simp only [dnf_todouble, dnf_todouble_pack, intMax]
  norm_num

/-- `dnf_todouble` on the normalized-subnormal shape of a half: packed as a
normal double. -/
theorem todouble_on_sub (pd m k : ℕ) (sg : Bool) (hm : m < 2 ^ 10)
    (hk1 : 1 ≤ k) (hk10 : k ≤ 10)
    (hge : 2 ^ 63 ≤ m * 2 ^ (53 + k)) (hlt : m * 2 ^ (53 + k) < 2 ^ 64) :
    dnf_todouble pd { sign := sg, exp := -14 - (k : ℤ), frac := m * 2 ^ (53 + k) } =
      (0, (if sg then 2 ^ 63 else 0) + (1009 - k) * 2 ^ 52 + (m * 2 ^ (42 + k) - 2 ^ 52)) := by
  have hsplit : m * 2 ^ (53 + k) = m * 2 ^ (42 + k) * 2 ^ 11 := by
    calc m * 2 ^ (53 + k) = m * 2 ^ (42 + k + 11) := by
          rw [show 42 + k + 11 = 53 + k from by omega]
    _ = m * (2 ^ (42 + k) * 2 ^ 11) := by rw [pow_add]
    _ = m * 2 ^ (42 + k) * 2 ^ 11 := by rw [mul_assoc]
  have hsplit12 : m * 2 ^ (53 + k) = m * 2 ^ (41 + k) * 2 ^ 12 := by
    calc m * 2 ^ (53 + k) = m * 2 ^ (41 + k + 12) := by
          rw [show 41 + k + 12 = 53 + k from by omega]
    _ = m * (2 ^ (41 + k) * 2 ^ 12) := by rw [pow_add]
    _ = m * 2 ^ (41 + k) * 2 ^ 12 := by rw [mul_assoc]
  have hX1 : 2 ^ 52 ≤ m * 2 ^ (42 + k) := by
    have h1 : 2 ^ 52 * 2 ^ 11 ≤ m * 2 ^ (42 + k) * 2 ^ 11 := by
      rw [← hsplit]
      calc (2 : ℕ) ^ 52 * 2 ^ 11 = 2 ^ 63 := by norm_num
      _ ≤ m * 2 ^ (53 + k) := hge
    exact Nat.le_of_mul_le_mul_right h1 (by positivity)
  have hX2 : m * 2 ^ (42 + k) < 2 ^ 53 := by
    have h1 : m * 2 ^ (42 + k) * 2 ^ 11 < 2 ^ 53 * 2 ^ 11 := by
      rw [← hsplit]
      calc m * 2 ^ (53 + k) < 2 ^ 64 := hlt
      _ = 2 ^ 53 * 2 ^ 11 := by norm_num
    exact lt_of_mul_lt_mul_right h1 (Nat.zero_le _)
  have hc1 : ¬(-14 - (k : ℤ) = intMax) := by
    simp only [intMax]
    omega
  have hc2 : ¬(-14 - (k : ℤ) < -1074 ∨ 1023 < -14 - (k : ℤ)) := by omega
  have hc3 : ¬(-14 - (k : ℤ) = 0 ∧ m * 2 ^ (53 + k) = 0) := by
    rintro ⟨hz, -⟩
    omega
  have hc4 : ¬(-14 - (k : ℤ) < -1022) := by omega
  have hbase : ((-14 - (k : ℤ) + 1023) % 2048).toNat = 1009 - k := by omega
  have hmask : m * 2 ^ (53 + k) &&& 0x0000000000000FFF = 0 := by
    rw [and_mask _ 12 _ (by norm_num), hsplit12, Nat.mul_mod_left]
  have hdiv : m * 2 ^ (53 + k) / 2 ^ 11 = m * 2 ^ (42 + k) := by
    rw [hsplit, Nat.mul_div_cancel _ (by positivity)]
  have hmant : (m * 2 ^ (53 + k)) >>> 11 &&& 0x000FFFFFFFFFFFFF = m * 2 ^ (42 + k) - 2 ^ 52 := by
    rw [Nat.shiftRight_eq_div_pow, hdiv, and_mask _ 52 _ (by norm_num)]
    omega
  simp only [dnf_todouble]
  rw [if_neg hc1, if_neg hc2, if_neg hc3, if_neg hc4]
  simp only [hbase, Nat.shiftLeft_eq, dnf_todouble_pack]
  rw [if_neg (show ¬(m * 2 ^ (53 + k) &&& 0x0000000000000FFF ≠ 0) by
      simp only [ne_eq, not_not]
      exact hmask), hmant,
    lor_mul_two_pow_add 52 (1009 - k) _ (by omega),
    or_sign_bit _ sg 63 _ (by omega) (by norm_num), ← Nat.add_assoc]

/-- `dnf_todouble` on the normal shape of a half. -/
theorem todouble_on_norm (pd e m : ℕ) (sg : Bool) (he1 : 1 ≤ e) (he2 : e ≤ 30)
    (hm : m < 2 ^ 10) :
    dnf_todouble pd { sign := sg, exp := (e : ℤ) - 15, frac := 2 ^ 63 + m * 2 ^ 53 } =
      (0, (if sg then 2 ^ 63 else 0) + (e + 1008) * 2 ^ 52 + m * 2 ^ 42) := by
  have hc1 : ¬((e : ℤ) - 15 = intMax) := by
    simp only [intMax]
    omega
  have hc2 : ¬((e : ℤ) - 15 < -1074 ∨ 1023 < (e : ℤ) - 15) := by omega
  have hc3 : ¬((e : ℤ) - 15 = 0 ∧ 2 ^ 63 + m * 2 ^ 53 = 0) := by
    rintro ⟨-, hz⟩
    omega
  have hc4 : ¬((e : ℤ) - 15 < -1022) := by omega
  have hbase : (((e : ℤ) - 15 + 1023) % 2048).toNat = e + 1008 := by omega
  have hmant : (2 ^ 63 + m * 2 ^ 53) >>> 11 &&& 0x000FFFFFFFFFFFFF = m * 2 ^ 42 := by
    rw [Nat.shiftRight_eq_div_pow, and_mask _ 52 _ (by norm_num)]
    omega
  simp only [dnf_todouble]
  rw [if_neg hc1, if_neg hc2, if_neg hc3, if_neg hc4]
  simp only [hbase, Nat.shiftLeft_eq, dnf_todouble_pack]
  rw [if_neg (show ¬((2 ^ 63 + m * 2 ^ 53) &&& 0x0000000000000FFF ≠ 0) by
      simp only [ne_eq, not_not]
      rw [and_mask _ 12 _ (by norm_num)]
      omega),
    hmant, lor_mul_two_pow_add 52 (e + 1008) _ (by omega),
    or_sign_bit _ sg 63 _ (by omega) (by norm_num), ← Nat.add_assoc]

/-! ### Evaluating the spec-level valuations on packed bit patterns -/

/-- `valHalf` on a pattern assembled from its three fields. -/
theorem valHalf_eval (S E M : ℕ) (hS : S = 0 ∨ S = 2 ^ 15) (hE : E < 2 ^ 5) (hM : M < 2 ^ 10) :
    valHalf (S + E * 2 ^ 10 + M) =
      (if S = 0 then 1 else (-1 : ℚ)) *
        (((if E = 0 then M else (2 ^ 10 + M) * 2 ^ (E - 1) : ℕ) : ℚ) / ((2 ^ 24 : ℕ) : ℚ)) := by
  rcases hS with rfl | rfl
  · have h1 : (0 + E * 2 ^ 10 + M) / 2 ^ 15 % 2 = 0 := by omega
    have h2 : (0 + E * 2 ^ 10 + M) / 2 ^ 10 % 2 ^ 5 = E := by omega
    have h3 : (0 + E * 2 ^ 10 + M) % 2 ^ 10 = M := by omega
    simp only [valHalf, h1, h2, h3]
    norm_num
  · have h1 : (2 ^ 15 + E * 2 ^ 10 + M) / 2 ^ 15 % 2 = 1 := by omega
    have h2 : (2 ^ 15 + E * 2 ^ 10 + M) / 2 ^ 10 % 2 ^ 5 = E := by omega
    have h3 : (2 ^ 15 + E * 2 ^ 10 + M) % 2 ^ 10 = M := by omega
    simp only [valHalf, h1, h2, h3]
    norm_num

/-- `valSingle` on a pattern assembled from its three fields. -/
theorem valSingle_eval (S E M : ℕ) (hS : S = 0 ∨ S = 2 ^ 31) (hE : E < 2 ^ 8) (hM : M < 2 ^ 23) :
    valSingle (S + E * 2 ^ 23 + M) =
      (if S = 0 then 1 else (-1 : ℚ)) *
        (((if E = 0 then M else (2 ^ 23 + M) * 2 ^ (E - 1) : ℕ) : ℚ) / ((2 ^ 149 : ℕ) : ℚ)) := by
  rcases hS with rfl | rfl
  · have h1 : (0 + E * 2 ^ 23 + M) / 2 ^ 31 % 2 = 0 := by omega
    have h2 : (0 + E * 2 ^ 23 + M) / 2 ^ 23 % 2 ^ 8 = E := by omega
    have h3 : (0 + E * 2 ^ 23 + M) % 2 ^ 23 = M := by omega
    simp only [valSingle, h1, h2, h3]
    norm_num
  · have h1 : (2 ^ 31 + E * 2 ^ 23 + M) / 2 ^ 31 % 2 = 1 := by omega
    have h2 : (2 ^ 31 + E * 2 ^ 23 + M) / 2 ^ 23 % 2 ^ 8 = E := by omega
    have h3 : (2 ^ 31 + E * 2 ^ 23 + M) % 2 ^ 23 = M := by omega
    simp only [valSingle, h1, h2, h3]
    norm_num

/-- `valDouble` on a pattern assembled from its three fields. -/
theorem valDouble_eval (S E M : ℕ) (hS : S = 0 ∨ S = 2 ^ 63) (hE : E < 2 ^ 11) (hM : M < 2 ^ 52) :
    valDouble (S + E * 2 ^ 52 + M) =
      (if S = 0 then 1 else (-1 : ℚ)) *
        (((if E = 0 then M else (2 ^ 52 + M) * 2 ^ (E - 1) : ℕ) : ℚ) / ((2 ^ 1074 : ℕ) : ℚ)) := by
  rcases hS with rfl | rfl
  · have h1 : (0 + E * 2 ^ 52 + M) / 2 ^ 63 % 2 = 0 := by omega
    have h2 : (0 + E * 2 ^ 52 + M) / 2 ^ 52 % 2 ^ 11 = E := by omega
    have h3 : (0 + E * 2 ^ 52 + M) % 2 ^ 52 = M := by omega
    simp only [valDouble, h1, h2, h3]
    norm_num
  · have h1 : (2 ^ 63 + E * 2 ^ 52 + M) / 2 ^ 63 % 2 = 1 := by omega
    have h2 : (2 ^ 63 + E * 2 ^ 52 + M) / 2 ^ 52 % 2 ^ 11 = E := by omega
    have h3 : (2 ^ 63 + E * 2 ^ 52 + M) % 2 ^ 52 = M := by omega
    simp only [valDouble, h1, h2, h3]
    norm_num

/-! ### Value preservation of widening, case by case -/

/-- Widening a normal half to single preserves the value. -/
theorem val_norm_single (s e m : ℕ) (hs : s < 2) (he1 : 1 ≤ e) (he2 : e ≤ 30) (hm : m < 2 ^ 10) :
    valSingle ((if decide (s = 1) then 2 ^ 31 else 0) + (e + 112) * 2 ^ 23 + m * 2 ^ 13) =
      valHalf (s * 2 ^ 15 + e * 2 ^ 10 + m) := by
  obtain ⟨e1, rfl⟩ : ∃ e1, e = e1 + 1 := ⟨e - 1, by omega⟩
  have hS : (if decide (s = 1) then (2 : ℕ) ^ 31 else 0) = 0 ∨
      (if decide (s = 1) then (2 : ℕ) ^ 31 else 0) = 2 ^ 31 := by
    interval_cases s <;> simp
  rw [valSingle_eval _ (e1 + 1 + 112) (m * 2 ^ 13) hS (by omega) (by omega)]
  rw [valHalf_eval (s * 2 ^ 15) (e1 + 1) m (by interval_cases s <;> simp) (by omega) hm]
  have hsgn : (if (if decide (s = 1) then (2 : ℕ) ^ 31 else 0) = 0 then (1 : ℚ) else -1) =
      (if (s * 2 ^ 15 : ℕ) = 0 then (1 : ℚ) else -1) := by
    interval_cases s <;> norm_num
  rw [hsgn]
  refine congrArg (fun q => (if (s * 2 ^ 15 : ℕ) = 0 then (1 : ℚ) else -1) * q) ?_
  rw [if_neg (by omega : ¬(e1 + 1 + 112 = 0)), if_neg (by omega : ¬(e1 + 1 = 0))]
  have hx1 : e1 + 1 + 112 - 1 = e1 + 112 := by omega
  have hx2 : e1 + 1 - 1 = e1 := by omega
  rw [hx1, hx2, div_eq_div_iff (by positivity) (by positivity)]
  push_cast
  ring

/-- Widening a subnormal half to single preserves the value. -/
theorem val_sub_single (s m k : ℕ) (hs : s < 2) (hm : m < 2 ^ 10)
    (hk1 : 1 ≤ k) (hk10 : k ≤ 10)
    (hge : 2 ^ 63 ≤ m * 2 ^ (53 + k)) (hlt : m * 2 ^ (53 + k) < 2 ^ 64) :
    valSingle ((if decide (s = 1) then 2 ^ 31 else 0) + (113 - k) * 2 ^ 23 +
        (m * 2 ^ (13 + k) - 2 ^ 23)) =
      valHalf (s * 2 ^ 15 + m) := by
  have hsplit : m * 2 ^ (53 + k) = m * 2 ^ (13 + k) * 2 ^ 40 := by
    calc m * 2 ^ (53 + k) = m * 2 ^ (13 + k + 40) := by
          rw [show 13 + k + 40 = 53 + k from by omega]
    _ = m * (2 ^ (13 + k) * 2 ^ 40) := by rw [pow_add]
    _ = m * 2 ^ (13 + k) * 2 ^ 40 := by rw [mul_assoc]
  have hX1 : 2 ^ 23 ≤ m * 2 ^ (13 + k) := by
    have h1 : 2 ^ 23 * 2 ^ 40 ≤ m * 2 ^ (13 + k) * 2 ^ 40 := by
      rw [← hsplit]
      calc (2 : ℕ) ^ 23 * 2 ^ 40 = 2 ^ 63 := by norm_num
      _ ≤ m * 2 ^ (53 + k) := hge
    exact Nat.le_of_mul_le_mul_right h1 (by positivity)
  have hX2 : m * 2 ^ (13 + k) < 2 ^ 24 := by
    have h1 : m * 2 ^ (13 + k) * 2 ^ 40 < 2 ^ 24 * 2 ^ 40 := by
      rw [← hsplit]
      calc m * 2 ^ (53 + k) < 2 ^ 64 := hlt
      _ = 2 ^ 24 * 2 ^ 40 := by norm_num
    exact lt_of_mul_lt_mul_right h1 (Nat.zero_le _)
  have hS : (if decide (s = 1) then (2 : ℕ) ^ 31 else 0) = 0 ∨
      (if decide (s = 1) then (2 : ℕ) ^ 31 else 0) = 2 ^ 31 := by
    interval_cases s <;> simp
  rw [valSingle_eval _ (113 - k) (m * 2 ^ (13 + k) - 2 ^ 23) hS (by omega) (by omega)]
  rw [show s * 2 ^ 15 + m = s * 2 ^ 15 + 0 * 2 ^ 10 + m from by ring]
  rw [valHalf_eval (s * 2 ^ 15) 0 m (by interval_cases s <;> simp) (by omega) hm]
  have hsgn : (if (if decide (s = 1) then (2 : ℕ) ^ 31 else 0) = 0 then (1 : ℚ) else -1) =
      (if (s * 2 ^ 15 : ℕ) = 0 then (1 : ℚ) else -1) := by
    interval_cases s <;> norm_num
  rw [hsgn]
  refine congrArg (fun q => (if (s * 2 ^ 15 : ℕ) = 0 then (1 : ℚ) else -1) * q) ?_
  rw [if_neg (by omega : ¬(113 - k = 0)), if_pos rfl]
  have hM : 2 ^ 23 + (m * 2 ^ (13 + k) - 2 ^ 23) = m * 2 ^ (13 + k) := by omega
  have hE1 : 113 - k - 1 = 112 - k := by omega
  rw [hM, hE1]
  have hnum : m * 2 ^ (13 + k) * 2 ^ (112 - k) = m * 2 ^ 125 := by
    rw [mul_assoc, ← pow_add, show 13 + k + (112 - k) = 125 from by omega]
  rw [hnum, div_eq_div_iff (by positivity) (by positivity)]
  push_cast
  ring

/-- Widening a normal half to double preserves the value. -/
theorem val_norm_double (s e m : ℕ) (hs : s < 2) (he1 : 1 ≤ e) (he2 : e ≤ 30) (hm : m < 2 ^ 10) :
    valDouble ((if decide (s = 1) then 2 ^ 63 else 0) + (e + 1008) * 2 ^ 52 + m * 2 ^ 42) =
      valHalf (s * 2 ^ 15 + e * 2 ^ 10 + m) := by
  obtain ⟨e1, rfl⟩ : ∃ e1, e = e1 + 1 := ⟨e - 1, by omega⟩
  have hS : (if decide (s = 1) then (2 : ℕ) ^ 63 else 0) = 0 ∨
      (if decide (s = 1) then (2 : ℕ) ^ 63 else 0) = 2 ^ 63 := by
    interval_cases s <;> simp
  rw [valDouble_eval _ (e1 + 1 + 1008) (m * 2 ^ 42) hS (by omega) (by omega)]
  rw [valHalf_eval (s * 2 ^ 15) (e1 + 1) m (by interval_cases s <;> simp) (by omega) hm]
  have hsgn : (if (if decide (s = 1) then (2 : ℕ) ^ 63 else 0) = 0 then (1 : ℚ) else -1) =
      (if (s * 2 ^ 15 : ℕ) = 0 then (1 : ℚ) else -1) := by
    interval_cases s <;> norm_num
  rw [hsgn]
  refine congrArg (fun q => (if (s * 2 ^ 15 : ℕ) = 0 then (1 : ℚ) else -1) * q) ?_
  rw [if_neg (by omega : ¬(e1 + 1 + 1008 = 0)), if_neg (by omega : ¬(e1 + 1 = 0))]
  have hx1 : e1 + 1 + 1008 - 1 = e1 + 1008 := by omega
  have hx2 : e1 + 1 - 1 = e1 := by omega
  rw [hx1, hx2, div_eq_div_iff (by positivity) (by positivity)]
  push_cast
  ring

/-- Widening a subnormal half to double preserves the value. -/
theorem val_sub_double (s m k : ℕ) (hs : s < 2) (hm : m < 2 ^ 10)
    (hk1 : 1 ≤ k) (hk10 : k ≤ 10)
    (hge : 2 ^ 63 ≤ m * 2 ^ (53 + k)) (hlt : m * 2 ^ (53 + k) < 2 ^ 64) :
    valDouble ((if decide (s = 1) then 2 ^ 63 else 0) + (1009 - k) * 2 ^ 52 +
        (m * 2 ^ (42 + k) - 2 ^ 52)) =
      valHalf (s * 2 ^ 15 + m) := by
  have hsplit : m * 2 ^ (53 + k) = m * 2 ^ (42 + k) * 2 ^ 11 := by
    calc m * 2 ^ (53 + k) = m * 2 ^ (42 + k + 11) := by
          rw [show 42 + k + 11 = 53 + k from by omega]
    _ = m * (2 ^ (42 + k) * 2 ^ 11) := by rw [pow_add]
    _ = m * 2 ^ (42 + k) * 2 ^ 11 := by rw [mul_assoc]
  have hX1 : 2 ^ 52 ≤ m * 2 ^ (42 + k) := by
    have h1 : 2 ^ 52 * 2 ^ 11 ≤ m * 2 ^ (42 + k) * 2 ^ 11 := by
      rw [← hsplit]
      calc (2 : ℕ) ^ 52 * 2 ^ 11 = 2 ^ 63 := by norm_num
      _ ≤ m * 2 ^ (53 + k) := hge
    exact Nat.le_of_mul_le_mul_right h1 (by positivity)
  have hX2 : m * 2 ^ (42 + k) < 2 ^ 53 := by
    have h1 : m * 2 ^ (42 + k) * 2 ^ 11 < 2 ^ 53 * 2 ^ 11 := by
      rw [← hsplit]
      calc m * 2 ^ (53 + k) < 2 ^ 64 := hlt
      _ = 2 ^ 53 * 2 ^ 11 := by norm_num
    exact lt_of_mul_lt_mul_right h1 (Nat.zero_le _)
  have hS : (if decide (s = 1) then (2 : ℕ) ^ 63 else 0) = 0 ∨
      (if decide (s = 1) then (2 : ℕ) ^ 63 else 0) = 2 ^ 63 := by
    interval_cases s <;> simp
  rw [valDouble_eval _ (1009 - k) (m * 2 ^ (42 + k) - 2 ^ 52) hS (by omega) (by omega)]
  rw [show s * 2 ^ 15 + m = s * 2 ^ 15 + 0 * 2 ^ 10 + m from by ring]
  rw [valHalf_eval (s * 2 ^ 15) 0 m (by interval_cases s <;> simp) (by omega) hm]
  have hsgn : (if (if decide (s = 1) then (2 : ℕ) ^ 63 else 0) = 0 then (1 : ℚ) else -1) =
      (if (s * 2 ^ 15 : ℕ) = 0 then (1 : ℚ) else -1) := by
    interval_cases s <;> norm_num
  rw [hsgn]
  refine congrArg (fun q => (if (s * 2 ^ 15 : ℕ) = 0 then (1 : ℚ) else -1) * q) ?_
  rw [if_neg (by omega : ¬(1009 - k = 0)), if_pos rfl]
  have hM : 2 ^ 52 + (m * 2 ^ (42 + k) - 2 ^ 52) = m * 2 ^ (42 + k) := by omega
  have hE1 : 1009 - k - 1 = 1008 - k := by omega
  rw [hM, hE1]
  have hnum : m * 2 ^ (42 + k) * 2 ^ (1008 - k) = m * 2 ^ 1050 := by
    rw [mul_assoc, ← pow_add, show 42 + k + (1008 - k) = 1050 from by omega]
  rw [hnum, div_eq_div_iff (by positivity) (by positivity)]
  push_cast
  ring

/-- C6: widening a half to single or double always succeeds, and for finite
inputs (exponent field not all-ones) the widened pattern denotes the same
rational value. -/
theorem c6_widening (h : ℕ) (hh : h < 2 ^ 16) (pf pd : ℕ) :
    (dnf_tosingle pf (dnf_fromhalf h).2).1 = 0 ∧
    (dnf_todouble pd (dnf_fromhalf h).2).1 = 0 ∧
    (h / 2 ^ 10 % 2 ^ 5 ≠ 31 →
      valSingle (dnf_tosingle pf (dnf_fromhalf h).2).2 = valHalf h ∧
      valDouble (dnf_todouble pd (dnf_fromhalf h).2).2 = valHalf h) := by
  obtain ⟨s, e, m, hs, he, hm, rfl⟩ :
      ∃ s e m : ℕ, s < 2 ∧ e < 32 ∧ m < 2 ^ 10 ∧ h = s * 2 ^ 15 + e * 2 ^ 10 + m :=
    ⟨h / 2 ^ 15, h / 2 ^ 10 % 32, h % 2 ^ 10, by omega, by omega, by omega, by omega⟩
  have hef : (s * 2 ^ 15 + e * 2 ^ 10 + m) / 2 ^ 10 % 2 ^ 5 = e := by omega
  rw [hef]
  by_cases he31 : e = 31
  · subst he31
    rw [fromhalf_inf s m hs hm]
    dsimp only
    rw [tosingle_on_inf pf m _ hm, todouble_on_inf pd m _ hm]
    exact ⟨rfl, rfl, fun hc => absurd rfl hc⟩
  · by_cases he0 : e = 0
    · subst he0
      by_cases hm0 : m = 0
      · subst hm0
        rw [show s * 2 ^ 15 + 0 * 2 ^ 10 + 0 = s * 2 ^ 15 from by ring, fromhalf_zero s hs]
        dsimp only
        rw [tosingle_on_zero pf _, todouble_on_zero pd _]
        refine ⟨rfl, rfl, fun _ => ⟨?_, ?_⟩⟩
        · interval_cases s <;> norm_num [valSingle, valHalf]
        · interval_cases s <;> norm_num [valDouble, valHalf]
      · rw [show s * 2 ^ 15 + 0 * 2 ^ 10 + m = s * 2 ^ 15 + m from by ring]
        obtain ⟨k, hk1, hk10, heq, hge, hlt⟩ := fromhalf_sub s m hs hm hm0
        rw [heq]
        dsimp only
        rw [tosingle_on_sub pf m k _ hm hk1 hk10 hge hlt,
          todouble_on_sub pd m k _ hm hk1 hk10 hge hlt]
        refine ⟨rfl, rfl, fun _ => ⟨?_, ?_⟩⟩
        · exact val_sub_single s m k hs hm hk1 hk10 hge hlt
        · exact val_sub_double s m k hs hm hk1 hk10 hge hlt
    · have he1 : 1 ≤ e := by omega
      have he2 : e ≤ 30 := by omega
      rw [fromhalf_norm s e m hs he1 he2 hm]
      dsimp only
      rw [tosingle_on_norm pf e m _ he1 he2 hm, todouble_on_norm pd e m _ he1 he2 hm]
      refine ⟨rfl, rfl, fun _ => ⟨?_, ?_⟩⟩
      · exact val_norm_single s e m hs he1 he2 hm
      · exact val_norm_double s e m hs he1 he2 hm

/-! ### All-ones exponent field for single and double -/

/-- `dnf_fromsingle` on an all-ones exponent field. -/
theorem fromsingle_inf (s m : ℕ) (hs : s < 2) (hm : m < 2 ^ 23) :
    dnf_fromsingle (s * 2 ^ 31 + 255 * 2 ^ 23 + m) =
      (0, { sign := decide (s = 1), exp := intMax, frac := m * 2 ^ 40 }) := by
  have he : (s * 2 ^ 31 + 255 * 2 ^ 23 + m) >>> 23 &&& 0xFF = 255 := by
    rw [Nat.shiftRight_eq_div_pow, and_mask _ 8 _ (by norm_num)]
    omega
  have hm2 : (s * 2 ^ 31 + 255 * 2 ^ 23 + m) &&& 0x007FFFFF = m := by
    rw [and_mask _ 23 _ (by norm_num)]
    omega
  have hsgn : ((s * 2 ^ 31 + 255 * 2 ^ 23 + m) >>> 31 != 0) = decide (s = 1) := by
    rw [Nat.shiftRight_eq_div_pow]
    have hdiv : (s * 2 ^ 31 + 255 * 2 ^ 23 + m) / 2 ^ 31 = s := by omega
    rw [hdiv]
    interval_cases s <;> rfl
  simp only [dnf_fromsingle, he, hm2, hsgn, Nat.shiftLeft_eq]
  norm_num

/-- `dnf_fromdouble` on an all-ones exponent field. -/
theorem fromdouble_inf (s m : ℕ) (hs : s < 2) (hm : m < 2 ^ 52) :
    dnf_fromdouble (s * 2 ^ 63 + 2047 * 2 ^ 52 + m) =
      (0, { sign := decide (s = 1), exp := intMax, frac := m * 2 ^ 11 }) := by
  have he : (s * 2 ^ 63 + 2047 * 2 ^ 52 + m) >>> 52 &&& 0x7FF = 2047 := by
    rw [Nat.shiftRight_eq_div_pow, and_mask _ 11 _ (by norm_num)]
    omega
  have hm2 : (s * 2 ^ 63 + 2047 * 2 ^ 52 + m) &&& 0x000FFFFFFFFFFFFF = m := by
    rw [and_mask _ 52 _ (by norm_num)]
    omega
  have hsgn : ((s * 2 ^ 63 + 2047 * 2 ^ 52 + m) >>> 63 != 0) = decide (s = 1) := by
    rw [Nat.shiftRight_eq_div_pow]
    have hdiv : (s * 2 ^ 63 + 2047 * 2 ^ 52 + m) / 2 ^ 63 = s := by omega
    rw [hdiv]
    interval_cases s <;> rfl
  simp only [dnf_fromdouble, he, hm2, hsgn, Nat.shiftLeft_eq]
  norm_num

/-! ### The claims -/

/-- C1: the claimed round-trip identity `recompose(double, decompose(double, x))
= (x, Success)` fails on the code.  For the double bit pattern
`0x3FF0000000000001` (the value `1 + 2^-52`), `dnf_todouble` of its
`dnf_fromdouble` decomposition returns `EDOM`, not success: the precision mask
at dnf.c:326 is `0xFFF` (12 bits) although the double mantissa is shifted left
by only 11 bits (dnf.c:186, dnf.c:329), so bit 11 — the mantissa's lowest
bit — falsely trips the check for every double with an odd mantissa, and
likewise for every subnormal double with mantissa bit 0 set.  The sibling
functions use exactly the below-mantissa masks (`2^53 - 1` for half at
dnf.c:264, `2^40 - 1` for single at dnf.c:295), the header documents `EDOM` as
"fraction contains too many bits to safely convert", and the caller
`cbor5lua_unpackf` (cbor5.c:143) treats `dnf_todouble` of any decomposed value
as the normal path, so the mask should be `0x7FF`: the code, not the claim, is
wrong. -/
theorem c1_double_roundtrip_fails :
    (dnf_todouble 0 (dnf_fromdouble 0x3FF0000000000001).2).1 = EDOM ∧ EDOM ≠ 0 := by
  constructor
  · decide
  · decide

/-- C2 counterexample: the claim says that on an all-ones exponent field the
intermediate value's exponent is reset to 0; the code instead stores the
sentinel `INT_MAX` (dnf.c:113-114).  At the half infinity pattern `0x7C00` the
decomposed exponent is `2147483647`, not 0. -/
theorem c2_counterexample : ¬((dnf_fromhalf 0x7C00).2.exp = 0) := by decide

/-- C2 amended: for every half, single or double bit pattern whose exponent
field is all-ones, decomposition sets the exponent to the sentinel `INT_MAX`
(there are no `isInfinite`/`isNaN` flags in `dnf__s`); the result denotes
infinity exactly when the pre-shift mantissa field is zero (fraction = 0) and
a NaN otherwise, and the NaN payload is kept in the upper bits of the fraction
buffer as shifted (mantissa shifted by 53/40/11 bits). -/
theorem c2_amended :
    (∀ s m : ℕ, s < 2 → m < 2 ^ 10 →
      (dnf_fromhalf (s * 2 ^ 15 + 31 * 2 ^ 10 + m)).2.exp = intMax ∧
      (dnf_fromhalf (s * 2 ^ 15 + 31 * 2 ^ 10 + m)).2.frac = m * 2 ^ 53 ∧
      ((dnf_fromhalf (s * 2 ^ 15 + 31 * 2 ^ 10 + m)).2.frac = 0 ↔ m = 0)) ∧
    (∀ s m : ℕ, s < 2 → m < 2 ^ 23 →
      (dnf_fromsingle (s * 2 ^ 31 + 255 * 2 ^ 23 + m)).2.exp = intMax ∧
      (dnf_fromsingle (s * 2 ^ 31 + 255 * 2 ^ 23 + m)).2.frac = m * 2 ^ 40 ∧
      ((dnf_fromsingle (s * 2 ^ 31 + 255 * 2 ^ 23 + m)).2.frac = 0 ↔ m = 0)) ∧
    (∀ s m : ℕ, s < 2 → m < 2 ^ 52 →
      (dnf_fromdouble (s * 2 ^ 63 + 2047 * 2 ^ 52 + m)).2.exp = intMax ∧
      (dnf_fromdouble (s * 2 ^ 63 + 2047 * 2 ^ 52 + m)).2.frac = m * 2 ^ 11 ∧
      ((dnf_fromdouble (s * 2 ^ 63 + 2047 * 2 ^ 52 + m)).2.frac = 0 ↔ m = 0)) := by
  refine ⟨fun s m hs hm => ?_, fun s m hs hm => ?_, fun s m hs hm => ?_⟩
  · rw [fromhalf_inf s m hs hm]
    dsimp only
    refine ⟨rfl, rfl, ?_⟩
    omega
  · rw [fromsingle_inf s m hs hm]
    dsimp only
    refine ⟨rfl, rfl, ?_⟩
    omega
  · rw [fromdouble_inf s m hs hm]
    dsimp only
    refine ⟨rfl, rfl, ?_⟩
    omega

/-- Witness for C2 amended at concrete NaN patterns of each width. -/
theorem c2_amended_witness :
    ((dnf_fromhalf 0x7E01).2.exp = intMax ∧
      (dnf_fromhalf 0x7E01).2.frac = 0x201 * 2 ^ 53 ∧
      ((dnf_fromhalf 0x7E01).2.frac = 0 ↔ (0x201 : ℕ) = 0)) ∧
    ((dnf_fromsingle 0xFF800001).2.exp = intMax ∧
      (dnf_fromsingle 0xFF800001).2.frac = 1 * 2 ^ 40 ∧
      ((dnf_fromsingle 0xFF800001).2.frac = 0 ↔ (1 : ℕ) = 0)) ∧
    ((dnf_fromdouble 0x7FF0000000000005).2.exp = intMax ∧
      (dnf_fromdouble 0x7FF0000000000005).2.frac = 5 * 2 ^ 11 ∧
      ((dnf_fromdouble 0x7FF0000000000005).2.frac = 0 ↔ (5 : ℕ) = 0)) :=
  ⟨c2_amended.1 0 0x201 (by decide) (by decide),
   c2_amended.2.1 1 1 (by decide) (by decide),
   c2_amended.2.2 0 5 (by decide) (by decide)⟩

/-- Witness for C3 at the NaN-with-payload pattern `0x7E01`. -/
theorem c3_witness : dnf_tohalf 0 (dnf_fromhalf 0x7E01).2 = (0, 0x7E01) :=
  c3_half_roundtrip 0x7E01 (by decide) 0

/-- Witness for C6 at the half pattern `0x3C01` (the value `1 + 2^-10`). -/
theorem c6_witness :
    (dnf_tosingle 0 (dnf_fromhalf 0x3C01).2).1 = 0 ∧
    (dnf_todouble 0 (dnf_fromhalf 0x3C01).2).1 = 0 ∧
    ((0x3C01 : ℕ) / 2 ^ 10 % 2 ^ 5 ≠ 31 →
      valSingle (dnf_tosingle 0 (dnf_fromhalf 0x3C01).2).2 = valHalf 0x3C01 ∧
      valDouble (dnf_todouble 0 (dnf_fromhalf 0x3C01).2).2 = valHalf 0x3C01) :=
  c6_widening 0x3C01 (by decide) 0 0

/-- C4: for every intermediate value passing `dnf_tohalf`'s exponent checks
(so between half's minimum subnormal exponent -24 and maximum exponent 15),
the recomposition fails with `EDOM` exactly when, after any denormalization,
some bit of the fraction below half's mantissa width (bits 0..52 of the
64-bit buffer) is set; in particular, decomposing the double `1 + 2^-11`
(pattern `0x3FF0020000000000`) and recomposing to half returns `EDOM`. -/
theorem dnf_tohalf_pack_status (q b : ℕ) (w : dnf__s) :
    (dnf_tohalf_pack q b w).1 = EDOM ↔ w.frac % 2 ^ 53 ≠ 0 := by
  unfold dnf_tohalf_pack
  rw [and_mask _ 53 _ (by norm_num)]
  by_cases hf : w.frac % 2 ^ 53 = 0
  · rw [if_neg (by omega)]
    exact iff_of_false (by simp [EDOM]) (by omega)
  · rw [if_pos (by omega)]
    exact iff_of_true rfl (by omega)

/-- C4: for every intermediate value passing `dnf_tohalf`'s exponent checks
(so between half's minimum subnormal exponent -24 and maximum exponent 15),
the recomposition fails with `EDOM` exactly when, after any denormalization,
some bit of the fraction below half's mantissa width (bits 0..52 of the
64-bit buffer) is set; in particular, decomposing the double `1 + 2^-11`
(pattern `0x3FF0020000000000`) and recomposing to half returns `EDOM`. -/
theorem c4_precision_check (v : dnf__s) (p : ℕ) (h1 : -24 ≤ v.exp) (h2 : v.exp ≤ 15) :
    ((dnf_tohalf p v).1 = EDOM ↔
      (if v.exp < -14 then dnfi_denormalize v (-14) else v).frac % 2 ^ 53 ≠ 0) ∧
    (dnf_tohalf 0 (dnf_fromdouble 0x3FF0020000000000).2).1 = EDOM := by
  refine ⟨?_, by decide⟩
  unfold dnf_tohalf
  have hcint : ¬(v.exp = intMax) := by
    simp only [intMax]
    omega
  rw [if_neg hcint, if_neg (by omega : ¬(v.exp < -24 ∨ 15 < v.exp))]
  by_cases hz : v.exp = 0 ∧ v.frac = 0
  · rw [if_pos hz, if_neg (by omega : ¬(v.exp < -14))]
    exact dnf_tohalf_pack_status p 0 v
  · rw [if_neg hz]
    by_cases hsub : v.exp < -14
    · rw [if_pos hsub, if_pos hsub]
      exact dnf_tohalf_pack_status p 0 _
    · rw [if_neg hsub, if_neg hsub]
      exact dnf_tohalf_pack_status p _ v

/-- Witness for C4 at the intermediate value `⟨false, 0, 1⟩`. -/
theorem c4_witness :
    ((dnf_tohalf 0 { sign := false, exp := 0, frac := 1 }).1 = EDOM ↔
      (if ({ sign := false, exp := 0, frac := 1 } : dnf__s).exp < -14 then
          dnfi_denormalize { sign := false, exp := 0, frac := 1 } (-14)
        else { sign := false, exp := 0, frac := 1 }).frac % 2 ^ 53 ≠ 0) ∧
    (dnf_tohalf 0 (dnf_fromdouble 0x3FF0020000000000).2).1 = EDOM :=
  c4_precision_check { sign := false, exp := 0, frac := 1 } 0 (by decide) (by decide)

/-- C5: for every non-infinite, non-NaN intermediate value (exponent not the
`INT_MAX` sentinel), recomposition fails with `ERANGE` exactly when the
exponent is outside the target's representable range: below -24 or above 15
for half, below -149 or above 127 for single, below -1074 or above 1023 for
double; in particular decomposing the double `2^16` (pattern
`0x40F0000000000000`) and recomposing to half returns `ERANGE`. -/
theorem c5_range_check (v : dnf__s) (p : ℕ) (hni : v.exp ≠ intMax) :
    ((dnf_tohalf p v).1 = ERANGE ↔ (v.exp < -24 ∨ 15 < v.exp)) ∧
    ((dnf_tosingle p v).1 = ERANGE ↔ (v.exp < -149 ∨ 127 < v.exp)) ∧
    ((dnf_todouble p v).1 = ERANGE ↔ (v.exp < -1074 ∨ 1023 < v.exp)) ∧
    (dnf_tohalf 0 (dnf_fromdouble 0x40F0000000000000).2).1 = ERANGE := by
  have hpackh : ∀ (q b : ℕ) (w : dnf__s), (dnf_tohalf_pack q b w).1 ≠ ERANGE := by
    intro q b w
    unfold dnf_tohalf_pack
    split_ifs <;> simp [EDOM, ERANGE]
  have hpacks : ∀ (q b : ℕ) (w : dnf__s), (dnf_tosingle_pack q b w).1 ≠ ERANGE := by
    intro q b w
    unfold dnf_tosingle_pack
    split_ifs <;> simp [EDOM, ERANGE]
  have hpackd : ∀ (q b : ℕ) (w : dnf__s), (dnf_todouble_pack q b w).1 ≠ ERANGE := by
    intro q b w
    unfold dnf_todouble_pack
    split_ifs <;> simp [EDOM, ERANGE]
  refine ⟨?_, ?_, ?_, by decide⟩
  · unfold dnf_tohalf
    rw [if_neg hni]
    by_cases hr : v.exp < -24 ∨ 15 < v.exp
    · rw [if_pos hr]
      simp [hr]
    · rw [if_neg hr]
      split_ifs <;> simp [hpackh, hr]
  · unfold dnf_tosingle
    rw [if_neg hni]
    by_cases hr : v.exp < -149 ∨ 127 < v.exp
    · rw [if_pos hr]
      simp [hr]
    · rw [if_neg hr]
      split_ifs <;> simp [hpacks, hr]
  · unfold dnf_todouble
    rw [if_neg hni]
    by_cases hr : v.exp < -1074 ∨ 1023 < v.exp
    · rw [if_pos hr]
      simp [hr]
    · rw [if_neg hr]
      split_ifs <;> simp [hpackd, hr]

/-- Witness for C5 at the intermediate value `⟨false, 2000, 0⟩`. -/
theorem c5_witness :
    ((dnf_tohalf 0 { sign := false, exp := 2000, frac := 0 }).1 = ERANGE ↔
      (({ sign := false, exp := 2000, frac := 0 } : dnf__s).exp < -24 ∨
        15 < ({ sign := false, exp := 2000, frac := 0 } : dnf__s).exp)) ∧
    ((dnf_tosingle 0 { sign := false, exp := 2000, frac := 0 }).1 = ERANGE ↔
      (({ sign := false, exp := 2000, frac := 0 } : dnf__s).exp < -149 ∨
        127 < ({ sign := false, exp := 2000, frac := 0 } : dnf__s).exp)) ∧
    ((dnf_todouble 0 { sign := false, exp := 2000, frac := 0 }).1 = ERANGE ↔
      (({ sign := false, exp := 2000, frac := 0 } : dnf__s).exp < -1074 ∨
        1023 < ({ sign := false, exp := 2000, frac := 0 } : dnf__s).exp)) ∧
    (dnf_tohalf 0 (dnf_fromdouble 0x40F0000000000000).2).1 = ERANGE :=
  c5_range_check { sign := false, exp := 2000, frac := 0 } 0 (by decide)

/-- C7: every intermediate value produced by a decomposer that represents a
finite non-zero value (exponent not the `INT_MAX` sentinel, fraction non-zero)
has bit 63 of its fraction set. -/
theorem c7_msb (x : ℕ) :
    (x < 2 ^ 16 → (dnf_fromhalf x).2.exp ≠ intMax → (dnf_fromhalf x).2.frac ≠ 0 →
      (dnf_fromhalf x).2.frac.testBit 63 = true) ∧
    (x < 2 ^ 32 → (dnf_fromsingle x).2.exp ≠ intMax → (dnf_fromsingle x).2.frac ≠ 0 →
      (dnf_fromsingle x).2.frac.testBit 63 = true) ∧
    (x < 2 ^ 64 → (dnf_fromdouble x).2.exp ≠ intMax → (dnf_fromdouble x).2.frac ≠ 0 →
      (dnf_fromdouble x).2.frac.testBit 63 = true) := by
  refine ⟨fun _ h1 h2 => ?_, fun _ h1 h2 => ?_, fun _ h1 h2 => ?_⟩
  · obtain ⟨hge, hlt⟩ := fromhalf_frac_msb x h1 (Or.inr h2)
    exact testBit63_of_bounds _ hge hlt
  · obtain ⟨hge, hlt⟩ := fromsingle_frac_msb x h1 (Or.inr h2)
    exact testBit63_of_bounds _ hge hlt
  · obtain ⟨hge, hlt⟩ := fromdouble_frac_msb x h1 (Or.inr h2)
    exact testBit63_of_bounds _ hge hlt

/-- Witness for C7 at the smallest subnormal pattern `1` of each width. -/
theorem c7_witness :
    (dnf_fromhalf 1).2.frac.testBit 63 = true ∧
    (dnf_fromsingle 1).2.frac.testBit 63 = true ∧
    (dnf_fromdouble 1).2.frac.testBit 63 = true :=
  ⟨(c7_msb 1).1 (by decide) (by decide) (by decide),
   (c7_msb 1).2.1 (by decide) (by decide) (by decide),
   (c7_msb 1).2.2 (by decide) (by decide) (by decide)⟩

/-- C8: the decomposers return status 0 for every input bit pattern of the
stated width — every path of each function ends in `return 0`. -/
theorem c8_decompose_total (x : ℕ) :
    (x < 2 ^ 16 → (dnf_fromhalf x).1 = 0) ∧
    (x < 2 ^ 32 → (dnf_fromsingle x).1 = 0) ∧
    (x < 2 ^ 64 → (dnf_fromdouble x).1 = 0) := by
  refine ⟨fun _ => ?_, fun _ => ?_, fun _ => ?_⟩
  · simp only [dnf_fromhalf]
    split_ifs <;> rfl
  · simp only [dnf_fromsingle]
    split_ifs <;> rfl
  · simp only [dnf_fromdouble]
    split_ifs <;> rfl

/-- Witness for C8 at the patterns of `1.0` in each width. -/
theorem c8_witness :
    (dnf_fromhalf 0x3C00).1 = 0 ∧ (dnf_fromsingle 0x3F800000).1 = 0 ∧
    (dnf_fromdouble 0x3FF0000000000000).1 = 0 :=
  ⟨(c8_decompose_total 0x3C00).1 (by decide),
   (c8_decompose_total 0x3F800000).2.1 (by decide),
   (c8_decompose_total 0x3FF0000000000000).2.2 (by decide)⟩

/-- C9: for an intermediate value produced by any decomposer whose exponent
passes a target format's range check and reaches that target's denormalize
call (`maxexp` is the target's minimum normal exponent, `lo` its minimum
subnormal exponent), the denormalize loop never drives the fraction to zero,
so the defensive `assert(pv->frac != 0)` at dnf.c:89 cannot fire. -/
theorem c9_denormalize_nonzero (x : ℕ) (v : dnf__s) (mx lo : Int)
    (hsrc : (v = (dnf_fromhalf x).2 ∧ x < 2 ^ 16) ∨
      (v = (dnf_fromsingle x).2 ∧ x < 2 ^ 32) ∨
      (v = (dnf_fromdouble x).2 ∧ x < 2 ^ 64))
    (htgt : (mx = -14 ∧ lo = -24) ∨ (mx = -126 ∧ lo = -149) ∨ (mx = -1022 ∧ lo = -1074))
    (hlo : lo ≤ v.exp) (hhi : v.exp < mx) :
    (dnfi_denormalize v mx).frac ≠ 0 := by
  have hne : v.exp ≠ intMax := by
    simp only [intMax]
    rcases htgt with ⟨rfl, rfl⟩ | ⟨rfl, rfl⟩ | ⟨rfl, rfl⟩ <;> omega
  have hnz : v.exp ≠ 0 := by
    rcases htgt with ⟨rfl, rfl⟩ | ⟨rfl, rfl⟩ | ⟨rfl, rfl⟩ <;> omega
  have hmsb : 2 ^ 63 ≤ v.frac ∧ v.frac < 2 ^ 64 := by
    rcases hsrc with ⟨rfl, -⟩ | ⟨rfl, -⟩ | ⟨rfl, -⟩
    · exact fromhalf_frac_msb x hne (Or.inl hnz)
    · exact fromsingle_frac_msb x hne (Or.inl hnz)
    · exact fromdouble_frac_msb x hne (Or.inl hnz)
  rw [dnfi_denormalize_eq]
  dsimp only
  have hk : (mx - v.exp).toNat ≤ 60 := by
    rcases htgt with ⟨rfl, rfl⟩ | ⟨rfl, rfl⟩ | ⟨rfl, rfl⟩ <;> omega
  have h1 : 2 ^ (mx - v.exp).toNat ≤ v.frac := by
    calc (2 : ℕ) ^ (mx - v.exp).toNat ≤ 2 ^ 60 := Nat.pow_le_pow_right (by norm_num) hk
    _ ≤ 2 ^ 63 := by norm_num
    _ ≤ v.frac := hmsb.1
  have hpos := Nat.div_pos h1 (by positivity : 0 < 2 ^ (mx - v.exp).toNat)
  omega

/-- Witness for C9: the subnormal half `0x0001` decomposed and denormalized
back toward half's minimum normal exponent keeps a non-zero fraction. -/
theorem c9_witness : (dnfi_denormalize (dnf_fromhalf 1).2 (-14)).frac ≠ 0 :=
  c9_denormalize_nonzero 1 (dnf_fromhalf 1).2 (-14) (-24) (Or.inl ⟨rfl, by decide⟩)
    (Or.inl ⟨rfl, rfl⟩) (by decide) (by decide)

/-- C10: whenever a recomposer returns a non-zero status, the output object
keeps its prior contents: the C functions write through the output pointer
only in the single final statement after both failure checks. -/
theorem c10_no_partial_write (v : dnf__s) (p : ℕ) :
    ((dnf_tohalf p v).1 ≠ 0 → (dnf_tohalf p v).2 = p) ∧
    ((dnf_tosingle p v).1 ≠ 0 → (dnf_tosingle p v).2 = p) ∧
    ((dnf_todouble p v).1 ≠ 0 → (dnf_todouble p v).2 = p) := by
  refine ⟨fun hs => ?_, fun hs => ?_, fun hs => ?_⟩
  · unfold dnf_tohalf dnf_tohalf_pack at hs ⊢
    split_ifs at hs ⊢ <;> first | rfl | exact absurd rfl hs
  · unfold dnf_tosingle dnf_tosingle_pack at hs ⊢
    split_ifs at hs ⊢ <;> first | rfl | exact absurd rfl hs
  · unfold dnf_todouble dnf_todouble_pack at hs ⊢
    split_ifs at hs ⊢ <;> first | rfl | exact absurd rfl hs

/-- Witness for C10 at out-of-range intermediate values. -/
theorem c10_witness :
    (dnf_tohalf 7 { sign := false, exp := 16, frac := 0 }).2 = 7 ∧
    (dnf_tosingle 7 { sign := false, exp := 128, frac := 0 }).2 = 7 ∧
    (dnf_todouble 7 { sign := false, exp := 1024, frac := 0 }).2 = 7 :=
  ⟨(c10_no_partial_write { sign := false, exp := 16, frac := 0 } 7).1 (by decide),
   (c10_no_partial_write { sign := false, exp := 128, frac := 0 } 7).2.1 (by decide),
   (c10_no_partial_write { sign := false, exp := 1024, frac := 0 } 7).2.2 (by decide)⟩

end DNF
